import Mathlib

/-!
Verification of the Frisco logic-language interpreter.

This file is a shallow embedding, in Lean 4, of the reasoning core of the
Frisco interpreter: the term model, the substitution, unification with
occurs-check, knowledge-base field resolution, the web lexer, the
cut-marker resolution engine of ExecutorWeb (frisco-web.js), the built-in
predicate table, and the LLM-judge semantic matcher (semantic-matcher.ts).

Modelling conventions:
- JavaScript Map objects holding variable bindings become association
  lists with JS Map.set / Map.get / Map.has semantics (substSet, substGet).
- The async generators of the executor are modelled as an eager,
  fuel-indexed evaluator returning the list of produced substitutions
  together with the final side-effect state.  Side effects (the output
  sink, the print buffer, the input source, the fresh-rename counter) are
  threaded through an explicit state record; Math.random fresh suffixes
  become a counter.  Fuel exhaustion yields no solutions; every
  terminating run of the source is reproduced by a large enough fuel.
- The external LLM judge is an oracle parameter; a response of none
  models every failed call (network error, non-2xx status or JSON parse
  failure, which all return null in SemanticMatcher.callLLM).
- Unbounded recursions of the source (deref chains, occurs, unify) are
  fuelled; deref uses fuel substitution-length + 1, which is complete on
  acyclic substitutions.
-/

/-- Term variant of the web AST (web parser produces no numbers). -/
inductive Term : Type where
  | Variable (name : String) (anonymous : Bool)
  | Atom (value : String)
  | StringLiteral (value : String)
  | TList (elements : List Term) (tail : Option Term)
  | CompoundTerm (functor : String) (args : List Term)
  | FieldAccess (object : String) (field : String)
deriving Repr

/-- Substitution: a JS Map from variable names to terms, as an assoc list. -/
def Subst : Type := List (String × Term)

/-- JS Map.get: first entry with the key. -/
def substGet (s : Subst) (k : String) : Option Term :=
  match s with
  | [] => none
  | (k', t) :: rest => if k' = k then some t else substGet rest k

/-- JS Map.set: replace in place when present, else append. -/
def substSet (s : Subst) (k : String) (v : Term) : Subst :=
  match s with
  | [] => [(k, v)]
  | (k', t) :: rest =>
      if k' = k then (k, v) :: rest else (k', t) :: substSet rest k v

/-- JS Map.has. -/
def substHas (s : Subst) (k : String) : Bool :=
  (substGet s k).isSome

/-- ExecutorWeb.deref, one unfolding step at a time, with fuel. -/
def derefN : Nat → Term → Subst → Term
  | 0, t, _ => t
  | n + 1, t, s =>
      match t with
      | .Variable name false =>
          match substGet s name with
          | some bound => derefN n bound s
          | none => t
      | _ => t

/-- ExecutorWeb.deref; fuel length+1 is complete on acyclic substitutions. -/
def deref (t : Term) (s : Subst) : Term :=
  derefN (s.length + 1) t s

mutual

/-- Names of the non-anonymous variables occurring syntactically in a term
(the variables a dereference walk can expand). -/
def fvars : Term → List String
  | .Variable name false => [name]
  | .Variable _ true => []
  | .Atom _ => []
  | .StringLiteral _ => []
  | .TList es none => fvarsList es
  | .TList es (some t) => fvarsList es ++ fvars t
  | .CompoundTerm _ args => fvarsList args
  | .FieldAccess _ _ => []

/-- fvars over a list of terms. -/
def fvarsList : List Term → List String
  | [] => []
  | t :: ts => fvars t ++ fvarsList ts

end

/-- ExecutorWeb.occurs, fuelled; exhausted fuel answers true (the source
recursion is unbounded; the conservative default only makes the embedded
unify fail where the source would keep searching). -/
def occursN : Nat → String → Term → Subst → Bool
  | 0, _, _, _ => true
  | n + 1, v, t, s =>
      match deref t s with
      | .Variable name _ => name == v
      | .TList es tl =>
          es.any (fun e => occursN n v e s)
            || (match tl with | some u => occursN n v u s | none => false)
      | .CompoundTerm _ args => args.any (fun a => occursN n v a s)
      | _ => false

/-- Concept declaration record (web AST). -/
structure ConceptDecl where
  name : String
  genus : Option String
  description : Option String
  attributes : List String
  essentials : List String
deriving Repr

/-- Entity declaration record (web AST). -/
structure EntityDecl where
  name : String
  conceptType : String
  description : Option String
  properties : List (String × String)
deriving Repr

/-- A Horn clause: head name, head parameters, body goals. -/
structure PredHead where
  name : String
  parameters : List Term
deriving Repr

/-- Goal variant of the web AST (Condition in executor-web.ts). -/
inductive Condition : Type where
  | PredicateCall (name : String) (arguments : List Term)
  | SemanticMatch (left right : Term)
  | EqualityU (left right : Term)
  | EqualityS (left right : Term)
  | Negation (goals : List Condition)
  | Disjunction (left right : List Condition)
  | IfThenElse (condition thenBranch elseBranch : List Condition)
  | Cut
deriving Repr

/-- A rule declaration. -/
structure Rule where
  head : PredHead
  body : List Condition
deriving Repr

/-- The knowledge base: concepts and entities indexed by name, rules in
program order. -/
structure KB where
  concepts : List ConceptDecl
  entities : List EntityDecl
  rules : List Rule
deriving Repr

/-- First concept with the given name (JS Map.get on kb.concepts). -/
def kbConcept (kb : KB) (name : String) : Option ConceptDecl :=
  kb.concepts.find? (fun c => c.name == name)

/-- First entity with the given name (JS Map.get on kb.entities). -/
def kbEntity (kb : KB) (name : String) : Option EntityDecl :=
  kb.entities.find? (fun e => e.name == name)

/-- The value a knowledge-base field lookup can produce. -/
inductive FieldVal : Type where
  | str (value : String)
  | arr (values : List String)
deriving Repr

/-- JS truthiness of an optional string (null and the empty string are falsy). -/
def truthyStr : Option String → Bool
  | none => false
  | some s => s ≠ ""

/-- ExecutorWeb.getFieldValue. -/
def getFieldValue (kb : KB) (objectName fieldName : String) : Option FieldVal :=
  let fromConcept : Option FieldVal :=
    match kbConcept kb objectName with
    | some c =>
        if fieldName = "description" ∧ truthyStr c.description then
          (c.description.map .str)
        else if fieldName = "genus" ∧ truthyStr c.genus then
          (c.genus.map .str)
        else if fieldName = "attributes" then some (.arr c.attributes)
        else if fieldName = "essentials" then some (.arr c.essentials)
        else none
    | none => none
  match fromConcept with
  | some v => some v
  | none =>
      match kbEntity kb objectName with
      | some e =>
          if fieldName = "description" ∧ truthyStr e.description then
            (e.description.map .str)
          else if fieldName = "concept" ∨ fieldName = "conceptType" then
            some (.str e.conceptType)
          else if (e.properties.lookup fieldName).isSome then
            ((e.properties.lookup fieldName).map .str)
          else
            match kbConcept kb e.conceptType with
            | some ec =>
                if fieldName = "attributes" then some (.arr ec.attributes)
                else if fieldName = "essentials" then some (.arr ec.essentials)
                else if fieldName = "genus" ∧ truthyStr ec.genus then
                  (ec.genus.map .str)
                else none
            | none => none
      | none => none

/-- ExecutorWeb.resolveField: strings become StringLiteral terms, arrays
become proper lists of StringLiteral terms, unresolved lookups leave the
term unchanged. -/
def resolveField (kb : KB) (t : Term) : Term :=
  match t with
  | .FieldAccess obj fld =>
      match getFieldValue kb obj fld with
      | none => t
      | some (.str v) => .StringLiteral v
      | some (.arr vs) => .TList (vs.map .StringLiteral) none
  | _ => t

mutual

/-- ExecutorWeb.termsEqual: structural equality, no dereferencing. -/
def termsEqual : Term → Term → Bool
  | .Variable n1 _, .Variable n2 _ => n1 == n2
  | .Atom v1, .Atom v2 => v1 == v2
  | .StringLiteral v1, .StringLiteral v2 => v1 == v2
  | .TList es1 tl1, .TList es2 tl2 =>
      termsEqualList es1 es2 &&
        (match tl1, tl2 with
         | some t1, some t2 => termsEqual t1 t2
         | none, none => true
         | _, _ => false)
  | .CompoundTerm f1 a1, .CompoundTerm f2 a2 => f1 == f2 && termsEqualList a1 a2
  | .FieldAccess o1 f1, .FieldAccess o2 f2 => o1 == o2 && f1 == f2
  | _, _ => false

/-- Pairwise termsEqual, false on length mismatch. -/
def termsEqualList : List Term → List Term → Bool
  | [], [] => true
  | a :: moreA, b :: moreB => termsEqual a b && termsEqualList moreA moreB
  | _, _ => false

end

/-- ExecutorWeb.termToString (result-binding rendering: strings quoted),
fuelled because dereferencing can re-enter bound structure. -/
def termToStringN : Nat → Term → Subst → String
  | 0, _, _ => ""
  | n + 1, term, s =>
      match deref term s with
      | .Variable name _ => name
      | .Atom v => v
      | .StringLiteral v => "\"" ++ v ++ "\""
      | .TList es tl =>
          let elements := es.map (fun e => termToStringN n e s)
          let tailStr :=
            match tl with
            | some t => "| " ++ termToStringN n t s
            | none => ""
          "[" ++ String.intercalate ", " elements ++
            (if tailStr = "" then "" else " " ++ tailStr) ++ "]"
      | .CompoundTerm f args =>
          f ++ "(" ++
            String.intercalate ", " (args.map (fun a => termToStringN n a s)) ++ ")"
      | .FieldAccess o f => o ++ "." ++ f

/-- ExecutorWeb.termToPrintable (print/println rendering: raw strings,
list tails ignored), fuelled. -/
def termToPrintableN : Nat → Term → Subst → String
  | 0, _, _ => ""
  | n + 1, term, s =>
      match deref term s with
      | .Variable name _ => name
      | .Atom v => v
      | .StringLiteral v => v
      | .TList es _ =>
          "[" ++ String.intercalate ", " (es.map (fun e => termToPrintableN n e s)) ++ "]"
      | .CompoundTerm f args =>
          f ++ "(" ++
            String.intercalate ", " (args.map (fun a => termToPrintableN n a s)) ++ ")"
      | .FieldAccess o f => o ++ "." ++ f

/-- The replace of the leading and trailing double quote performed by the
builtins before judge calls (the JS regex matching start-quote or
end-quote, both replaced). -/
def stripQuotes (s : String) : String :=
  let s1 := if s.startsWith "\"" then s.drop 1 else s
  if s1.endsWith "\"" then s1.dropRight 1 else s1

/-- Thread a pairwise unifier through a pair list, stopping at the first
failure (the argument loops of unify and evaluatePredicate). -/
def unifyPairs (u : Term → Term → Subst → Option Subst) :
    List (Term × Term) → Subst → Option Subst
  | [], s => some s
  | (a, b) :: rest, s =>
      match u a b s with
      | none => none
      | some s' => unifyPairs u rest s'

/-- ExecutorWeb.unify, fuelled (fuel exhaustion fails; the source
recursion is unbounded only on runs that do not terminate). -/
def unifyN (kb : KB) : Nat → Term → Term → Subst → Option Subst
  | 0, _, _, _ => none
  | n + 1, a, b, s =>
      let left := resolveField kb (deref a s)
      let right := resolveField kb (deref b s)
      match left, right with
      | .Variable _ true, _ => some s
      | _, .Variable _ true => some s
      | .Variable v false, _ =>
          if occursN (n + 1) v right s then none
          else some (substSet s v right)
      | _, .Variable v false =>
          if occursN (n + 1) v left s then none
          else some (substSet s v left)
      | .Atom x, .Atom y => if x = y then some s else none
      | .StringLiteral x, .StringLiteral y => if x = y then some s else none
      | .TList es1 tl1, .TList es2 tl2 =>
          match es1, es2 with
          | h1 :: t1, h2 :: t2 =>
              (match unifyN kb n h1 h2 s with
               | none => none
               | some s1 =>
                   unifyN kb n
                     (match tl1 with
                      | some t => t
                      | none => if t1.isEmpty then .TList [] none else .TList t1 none)
                     (match tl2 with
                      | some t => t
                      | none => if t2.isEmpty then .TList [] none else .TList t2 none)
                     s1)
          | _, _ =>
              match tl1, tl2 with
              | none, none =>
                  if es1.length = es2.length then
                    unifyPairs (unifyN kb n) (es1.zip es2) s
                  else none
              | _, _ => none
      | .CompoundTerm f1 a1, .CompoundTerm f2 a2 =>
          if f1 = f2 ∧ a1.length = a2.length then
            unifyPairs (unifyN kb n) (a1.zip a2) s
          else none
      | _, _ => none

/-- The sentinel key the web executor stores a fired cut under. -/
def CUT_MARKER : String := "__CUT__"

/-- ExecutorWeb.hasCut. -/
def hasCut (s : Subst) : Bool := substHas s CUT_MARKER

/-- ExecutorWeb.markCut. -/
def markCut (s : Subst) : Subst := substSet s CUT_MARKER (.Atom "!")

/-- The prefix of a solution stream a consumer loop delivers before
aborting on the first cut-marked solution (the marked one included). -/
def takeToCut : List Subst → List Subst
  | [] => []
  | σ :: rest => if hasCut σ then [σ] else σ :: takeToCut rest

/-- Whether any solution in the stream carries the cut marker. -/
def anyCut (l : List Subst) : Bool := l.any hasCut

mutual

/-- refreshRuleVariables.renameTerm: append the fresh suffix to every
variable name; other leaves unchanged. -/
def renameTerm (suffix : String) : Term → Term
  | .Variable name anon => .Variable (name ++ suffix) anon
  | .TList es tl => .TList (renameTermList suffix es) (renameTermOpt suffix tl)
  | .CompoundTerm f args => .CompoundTerm f (renameTermList suffix args)
  | .Atom v => .Atom v
  | .StringLiteral v => .StringLiteral v
  | .FieldAccess o f => .FieldAccess o f

/-- renameTerm over a list. -/
def renameTermList (suffix : String) : List Term → List Term
  | [] => []
  | t :: ts => renameTerm suffix t :: renameTermList suffix ts

/-- renameTerm over an optional tail. -/
def renameTermOpt (suffix : String) : Option Term → Option Term
  | none => none
  | some t => some (renameTerm suffix t)

end

mutual

/-- ExecutorWeb.renameConditionVariables. -/
def renameCond (suffix : String) : Condition → Condition
  | .PredicateCall name args => .PredicateCall name (renameTermList suffix args)
  | .SemanticMatch l r => .SemanticMatch (renameTerm suffix l) (renameTerm suffix r)
  | .EqualityU l r => .EqualityU (renameTerm suffix l) (renameTerm suffix r)
  | .EqualityS l r => .EqualityS (renameTerm suffix l) (renameTerm suffix r)
  | .Negation gs => .Negation (renameCondList suffix gs)
  | .Disjunction l r => .Disjunction (renameCondList suffix l) (renameCondList suffix r)
  | .IfThenElse c t e =>
      .IfThenElse (renameCondList suffix c) (renameCondList suffix t) (renameCondList suffix e)
  | .Cut => .Cut

/-- renameCond over a goal list. -/
def renameCondList (suffix : String) : List Condition → List Condition
  | [] => []
  | g :: gs => renameCond suffix g :: renameCondList suffix gs

end

/-- ExecutorWeb.refreshRuleVariables: a fresh suffix from the rename
counter (Math.random in the source) applied to head and body. -/
def refreshRule (r : Rule) (counter : Nat) : Rule :=
  let suffix := "__r" ++ toString counter
  { head := { name := r.head.name, parameters := renameTermList suffix r.head.parameters },
    body := renameCondList suffix r.body }

mutual

/-- ExecutorWeb.collectVariables visitCondition (raw occurrence order). -/
def collectCond : Condition → List String
  | .PredicateCall _ args => fvarsList args
  | .SemanticMatch l r => fvars l ++ fvars r
  | .EqualityU l r => fvars l ++ fvars r
  | .EqualityS l r => fvars l ++ fvars r
  | .Negation gs => collectCondList gs
  | .Disjunction l r => collectCondList l ++ collectCondList r
  | .IfThenElse c t e => collectCondList c ++ collectCondList t ++ collectCondList e
  | .Cut => []

/-- collectCond over a goal list. -/
def collectCondList : List Condition → List String
  | [] => []
  | g :: gs => collectCond g ++ collectCondList gs

end

/-- Keep the first occurrence of each name (JS Set insertion order). -/
def dedupFirst : List String → List String :=
  go []
where
  go (seen : List String) : List String → List String
    | [] => []
    | x :: xs => if x ∈ seen then go seen xs else x :: go (x :: seen) xs

/-- ExecutorWeb.collectVariables. -/
def collectVariables (goals : List Condition) : List String :=
  dedupFirst (collectCondList goals)

/-- ExecutorWeb.termToValueSync. -/
def termToValueSync (kb : KB) (t : Term) (s : Subst) : Option String :=
  match resolveField kb (deref t s) with
  | .StringLiteral v => some v
  | .Atom v => some v
  | _ => none

/-- The value termToValue produces: a string or an array of strings. -/
inductive TValue : Type where
  | str (value : String)
  | strs (values : List String)
deriving Repr

/-- ExecutorWeb.termToValue (null list elements become empty strings). -/
def termToValue (kb : KB) (t : Term) (s : Subst) : Option TValue :=
  match resolveField kb (deref t s) with
  | .StringLiteral v => some (.str v)
  | .Atom v => some (.str v)
  | .TList es _ => some (.strs (es.map (fun e => (termToValueSync kb e s).getD "")))
  | _ => none

/-- Engine parameters: the knowledge base, the judge threshold, and the
judge oracle.  score axis a b is the parsed similarity of one LLM judge
call; none models a failed call. -/
structure Env where
  kb : KB
  threshold : ℚ
  score : String → String → String → Option ℚ

/-- SemanticMatcherWeb.getSimilarityScore: clamp the response into [0,1],
zero on failure. -/
def getSimilarityScore (env : Env) (axis c1 c2 : String) : ℚ :=
  match env.score axis c1 c2 with
  | none => 0
  | some x => max 0 (min 1 x)

/-- SemanticMatcherWeb.match on a single string. -/
def matcherMatchStr (env : Env) (l r : String) : Bool :=
  env.threshold ≤ getSimilarityScore env "conceptual identity" l r

/-- SemanticMatcherWeb.match on a list: succeed on the first element whose
score reaches the threshold. -/
def matcherMatchList (env : Env) (items : List String) (r : String) : Bool :=
  items.any (fun i => decide (env.threshold ≤ getSimilarityScore env "conceptual identity" i r))

/-- SemanticMatcherWeb.matchWithThreshold for a single string (the
similar_attr path; an empty axis string is falsy and defaults). -/
def matchWithThreshold (env : Env) (l r dim : String) : Bool :=
  let axis := if dim = "" then "conceptual identity" else dim
  env.threshold ≤ getSimilarityScore env axis l r

/-- ExecutorWeb.evaluateSemanticMatch. -/
def evaluateSemanticMatch (env : Env) (l r : Term) (s : Subst) : Bool :=
  match termToValue env.kb (deref l s) s, termToValue env.kb (deref r s) s with
  | some (.str lv), some (.str rv) => matcherMatchStr env lv rv
  | some (.strs lvs), some (.str rv) => matcherMatchList env lvs rv
  | _, _ => false

/-- ExecutorWeb.termToGoal; none models the thrown Error for a
non-callable goal term. -/
def termToGoal : Term → Option Condition
  | .CompoundTerm f args => some (.PredicateCall f args)
  | .Atom v => some (.PredicateCall v [])
  | _ => none

/-- Side-effect state threaded through evaluation: the input source, the
output sink, the print buffer, the rename counter, and whether a
resolution error has been thrown. -/
structure St where
  inputs : List String
  outputs : List String
  printBuffer : String
  counter : Nat
  errored : Bool
deriving Repr

/-- Consume one line from the input source (empty line once exhausted). -/
def takeInput (st : St) : String × St :=
  match st.inputs with
  | [] => ("", st)
  | i :: rest => (i, { st with inputs := rest })

/-- The names the web runBuiltin dispatches on. -/
def builtinNames : List String :=
  ["print", "println", "readln", "member", "append", "reverse", "is_list",
   "similar_attr", "is_unbound", "is_bound", "is_atom", "findall", "setof"]

/-- setof deduplication: keep the first term for each rendered key
(the JS Set of termToString renderings). -/
def dedupByKey : List (String × Term) → List Term :=
  go []
where
  go (seen : List String) : List (String × Term) → List Term
    | [] => []
    | (k, t) :: rest => if k ∈ seen then go seen rest else t :: go (k :: seen) rest

/-- The pending work of the evaluator: a goal conjunction, the conjunction
continuation over the solutions of its first goal, a single condition, a
predicate call, or the clause iteration of a call. -/
inductive Job : Type where
  | goals (gs : List Condition) (σ : Subst)
  | seq (gs : List Condition) (pending : List Subst)
  | cond (c : Condition) (σ : Subst)
  | pred (name : String) (args : List Term) (σ : Subst)
  | clauses (name : String) (args : List Term) (rs : List Rule) (σ : Subst)

/-- The evaluator of ExecutorWeb (evaluateGoals, evaluateCondition,
evaluatePredicate, runBuiltin), as an eager fuel-indexed function from a
job and a side-effect state to the produced solutions and final state. -/
def run (env : Env) : Nat → Job → St → (List Subst × St)
  | 0, _, st => ([], st)
  | n + 1, job, st =>
      if st.errored then ([], st) else
      match job with
      | .goals [] σ => ([σ], st)
      | .goals (g :: gs) σ =>
          let (sols, st1) := run env n (.cond g σ) st
          run env n (.seq gs sols) st1
      | .seq _ [] => ([], st)
      | .seq gs (σ :: rest) =>
          let (r1, st1) := run env n (.goals gs σ) st
          if hasCut σ then (r1, st1)
          else
            let (r2, st2) := run env n (.seq gs rest) st1
            (r1 ++ r2, st2)
      | .cond c σ =>
          match c with
          | .PredicateCall name args => run env n (.pred name args σ) st
          | .SemanticMatch l r =>
              if evaluateSemanticMatch env l r σ then ([σ], st) else ([], st)
          | .EqualityU l r =>
              match unifyN env.kb (n + 1) l r σ with
              | some σ' => ([σ'], st)
              | none => ([], st)
          | .EqualityS l r =>
              if termsEqual (deref l σ) (deref r σ) then ([σ], st) else ([], st)
          | .Negation gs =>
              let (sols, st1) := run env n (.goals gs σ) st
              if sols.isEmpty then ([σ], st1) else ([], st1)
          | .Disjunction lgs rgs =>
              let (ls, st1) := run env n (.goals lgs σ) st
              if anyCut ls then (takeToCut ls, st1)
              else
                let (rs, st2) := run env n (.goals rgs σ) st1
                (takeToCut ls ++ takeToCut rs, st2)
          | .IfThenElse cnd thn els =>
              let (cs, st1) := run env n (.goals cnd σ) st
              match cs with
              | [] =>
                  let (es, st2) := run env n (.goals els σ) st1
                  (takeToCut es, st2)
              | c0 :: _ =>
                  let (ts, st2) := run env n (.goals thn c0) st1
                  (takeToCut ts, st2)
          | .Cut => ([markCut σ], st)
      | .pred name args σ =>
          if name = "print" then
            let rendered :=
              String.join (args.map (fun a => termToPrintableN (n + 1) (deref a σ) σ))
            ([σ], { st with printBuffer := st.printBuffer ++ rendered })
          else if name = "println" then
            let rendered :=
              String.join (args.map (fun a => termToPrintableN (n + 1) (deref a σ) σ))
            ([σ], { st with printBuffer := "",
                            outputs := st.outputs ++ [st.printBuffer ++ rendered] })
          else if name = "readln" then
            match args with
            | [a0] =>
                match deref a0 σ with
                | .Variable v _ =>
                    let (line, st') := takeInput st
                    ([substSet σ v (.StringLiteral line)], st')
                | _ => ([], st)
            | _ => ([], st)
          else if name = "member" then
            match args with
            | [item, listArg] =>
                match deref listArg σ with
                | .TList es _ =>
                    (es.filterMap (fun e => unifyN env.kb (n + 1) item e σ), st)
                | _ => ([], st)
            | _ => ([], st)
          else if name = "append" then
            match args with
            | [a0, b0, r0] =>
                match deref a0 σ, deref b0 σ, deref r0 σ with
                | .TList es1 _, .TList es2 _, rT =>
                    (match unifyN env.kb (n + 1) rT (.TList (es1 ++ es2) none) σ with
                     | some σ' => ([σ'], st)
                     | none => ([], st))
                | _, _, _ => ([], st)
            | _ => ([], st)
          else if name = "reverse" then
            match args with
            | [l0, r0] =>
                match deref l0 σ with
                | .TList es _ =>
                    (match unifyN env.kb (n + 1) r0 (.TList es.reverse none) σ with
                     | some σ' => ([σ'], st)
                     | none => ([], st))
                | _ => ([], st)
            | _ => ([], st)
          else if name = "is_list" then
            match args with
            | [a0] =>
                match deref a0 σ with
                | .TList _ _ => ([σ], st)
                | _ => ([], st)
            | _ => ([], st)
          else if name = "similar_attr" then
            match args with
            | [d0, a0, b0] =>
                let dim := termToStringN (n + 1) (deref d0 σ) σ
                let av := stripQuotes (termToStringN (n + 1) (deref a0 σ) σ)
                let bv := stripQuotes (termToStringN (n + 1) (deref b0 σ) σ)
                if matchWithThreshold env av bv dim then ([σ], st) else ([], st)
            | _ => ([], st)
          else if name = "is_unbound" then
            match args with
            | [a0] =>
                match deref a0 σ with
                | .Variable _ _ => ([σ], st)
                | _ => ([], st)
            | _ => ([], st)
          else if name = "is_bound" then
            match args with
            | [a0] =>
                match deref a0 σ with
                | .Variable _ _ => ([], st)
                | _ => ([σ], st)
            | _ => ([], st)
          else if name = "is_atom" then
            match args with
            | [a0] =>
                match deref a0 σ with
                | .Atom _ => ([σ], st)
                | .StringLiteral _ => ([σ], st)
                | _ => ([], st)
            | _ => ([], st)
          else if name = "findall" then
            match args with
            | [template, goalTerm, listVar] =>
                match termToGoal goalTerm with
                | none => ([], { st with errored := true })
                | some gc =>
                    let (sols, st1) := run env n (.goals [gc] σ) st
                    let results := sols.map (fun s => deref template s)
                    (match unifyN env.kb (n + 1) listVar (.TList results none) σ with
                     | some σ' => ([σ'], st1)
                     | none => ([], st1))
            | _ => ([], st)
          else if name = "setof" then
            match args with
            | [template, goalTerm, listVar] =>
                match termToGoal goalTerm with
                | none => ([], { st with errored := true })
                | some gc =>
                    let (sols, st1) := run env n (.goals [gc] σ) st
                    let pairs := sols.map
                      (fun s => (termToStringN (n + 1) (deref template s) s, deref template s))
                    let uniq := dedupByKey pairs
                    (match unifyN env.kb (n + 1) listVar (.TList uniq none) σ with
                     | some σ' => ([σ'], st1)
                     | none => ([], st1))
            | _ => ([], st)
          else
            run env n (.clauses name args env.kb.rules σ) st
      | .clauses _ _ [] _ => ([], st)
      | .clauses name args (r :: rs) σ =>
          if r.head.name = name ∧ r.head.parameters.length = args.length then
            let fresh := refreshRule r st.counter
            let st1 := { st with counter := st.counter + 1 }
            match unifyPairs (unifyN env.kb (n + 1)) (args.zip fresh.head.parameters) σ with
            | none => run env n (.clauses name args rs σ) st1
            | some σ' =>
                let (bs, st2) := run env n (.goals fresh.body σ') st1
                if anyCut bs then (takeToCut bs, st2)
                else
                  let (more, st3) := run env n (.clauses name args rs σ) st2
                  (takeToCut bs ++ more, st3)
          else run env n (.clauses name args rs σ) st

/-- ExecutorWeb.outputSolution: print the query variables bound in the
solution, nothing when none is bound. -/
def outputSolution (fuel : Nat) (σ : Subst) (goals : List Condition) (st : St) : St :=
  let vars := collectVariables goals
  let shown := vars.filter (fun v => substHas σ v)
  if shown.isEmpty then st
  else
    let lines := shown.map (fun name =>
      "  " ++ name ++ " = " ++
        (match substGet σ name with
         | some value => termToStringN fuel value σ
         | none => ""))
    { st with outputs := st.outputs ++ ["Bindings:"] ++ lines }

/-- The syntactic side-effect test executeQuery applies to the top-level
query body (nl is not in the list; nested calls are not seen). -/
def isSideEffectCall : Condition → Bool
  | .PredicateCall name _ => name ∈ ["print", "println", "readln"]
  | _ => false

/-- ExecutorWeb.executeQuery: stream the solutions, print bindings, then
the True/False terminator unless the top-level body syntactically contains
a side-effecting built-in call (or the evaluation threw). -/
def executeQuery (env : Env) (fuel : Nat) (goals : List Condition)
    (globals : Subst) (st : St) : St :=
  let (sols, st1) := run env fuel (.goals goals globals) st
  let st2 := sols.foldl (fun s σ => outputSolution fuel σ goals s) st1
  if st2.errored then st2
  else if goals.any isSideEffectCall then st2
  else if sols.length = 0 then { st2 with outputs := st2.outputs ++ ["False"] }
  else { st2 with outputs := st2.outputs ++ ["True"] }

/-- A fresh side-effect state over a given input source. -/
def mkSt (inputs : List String) : St :=
  { inputs := inputs, outputs := [], printBuffer := "", counter := 0, errored := false }

/-- The judge oracle of the node SemanticMatcher (semantic-matcher.ts):
one parsed response per operation; none models a failed callLLM (network
error, non-2xx status, or JSON parse failure all return null). -/
structure JudgeOracle where
  identityResp : String → String → Option ℚ
  axisResp : String → String → String → Option ℚ
  hasAttrResp : String → String → Option Bool
  shareAttrResp : String → String → String → Option Bool
  diffResp : String → String → Option String

/-- SemanticMatcher.getConceptualIdentity: clamp into [0,1], zero on a
failed call. -/
def getConceptualIdentity (j : JudgeOracle) (a b : String) : ℚ :=
  match j.identityResp a b with
  | some x => max 0 (min 1 x)
  | none => 0

/-- SemanticMatcher.getSimilarityAlongAxis: clamp into [0,1], zero on a
failed call. -/
def getSimilarityAlongAxis (j : JudgeOracle) (axis a b : String) : ℚ :=
  match j.axisResp axis a b with
  | some x => max 0 (min 1 x)
  | none => 0

/-- SemanticMatcher.hasAttribute: false on a failed call. -/
def hasAttribute (j : JudgeOracle) (characteristic concrete : String) : Bool :=
  (j.hasAttrResp characteristic concrete).getD false

/-- SemanticMatcher.shareAttribute: false on a failed call. -/
def shareAttribute (j : JudgeOracle) (characteristic a b : String) : Bool :=
  (j.shareAttrResp characteristic a b).getD false

/-- SemanticMatcher.getDifferentia: the empty string on a failed call. -/
def getDifferentia (j : JudgeOracle) (a b : String) : String :=
  (j.diffResp a b).getD ""

/-- SemanticMatcher.match on a single string. -/
def nodeMatchStr (j : JudgeOracle) (threshold : ℚ) (l r : String) : Bool :=
  threshold ≤ getConceptualIdentity j l r

/-- SemanticMatcher.match on a list of strings. -/
def nodeMatchList (j : JudgeOracle) (threshold : ℚ) (items : List String) (r : String) : Bool :=
  items.any (fun i => decide (threshold ≤ getConceptualIdentity j i r))

/-- The differentia/3 built-in of builtins.ts: ask the judge, fail on an
empty answer (JS truthiness), otherwise unify the third argument. -/
def differentiaHandler (kb : KB) (j : JudgeOracle) (fuel : Nat)
    (args : List Term) (s : Subst) : List Subst :=
  match args with
  | [a0, b0, r0] =>
      let a := stripQuotes (termToStringN fuel (deref a0 s) s)
      let b := stripQuotes (termToStringN fuel (deref b0 s) s)
      let resultVar := deref r0 s
      let d := getDifferentia j a b
      if d = "" then []
      else
        match unifyN kb fuel resultVar (.StringLiteral d) s with
        | some s' => [s']
        | none => []
  | _ => []

/-- The has_attr/2 built-in of builtins.ts. -/
def hasAttrHandler (j : JudgeOracle) (fuel : Nat) (args : List Term) (s : Subst) : List Subst :=
  match args with
  | [c0, x0] =>
      let c := stripQuotes (termToStringN fuel (deref c0 s) s)
      let x := stripQuotes (termToStringN fuel (deref x0 s) s)
      if hasAttribute j c x then [s] else []
  | _ => []

/-- The share_attr/3 built-in of builtins.ts. -/
def shareAttrHandler (j : JudgeOracle) (fuel : Nat) (args : List Term) (s : Subst) : List Subst :=
  match args with
  | [c0, a0, b0] =>
      let c := stripQuotes (termToStringN fuel (deref c0 s) s)
      let a := stripQuotes (termToStringN fuel (deref a0 s) s)
      let b := stripQuotes (termToStringN fuel (deref b0 s) s)
      if shareAttribute j c a b then [s] else []
  | _ => []

/-- Token kinds of the web lexer. -/
inductive TokType : Type where
  | STRING | SEMANTIC_MATCH | IMPLIES | IF_THEN | EQUAL_EQUAL
  | ASSIGN | QUERY | DOT | COMMA | COLON | LPAREN | RPAREN
  | LBRACKET | RBRACKET | BAR | SEMICOLON | CUTTOK
  | CONCEPT | ENTITY | DESCRIPTION | ATTRIBUTES | ESSENTIALS | NEGATION
  | IDENTIFIER | EOF
deriving Repr, DecidableEq

/-- A token with its position. -/
structure Token where
  type : TokType
  value : String
  line : Nat
  col : Nat
deriving Repr, DecidableEq

/-- Lexer.advance position bookkeeping. -/
def advancePos (line col : Nat) (c : Char) : Nat × Nat :=
  if c = '\n' then (line + 1, 1) else (line, col + 1)

/-- Lexer.readString after the opening quote: consume up to the closing
quote or the end of input, translating escapes; returns the string value,
the rest of the input and the position after. -/
def readStringBody : List Char → Nat → Nat → (String × List Char × Nat × Nat)
  | [], line, col => ("", [], line, col)
  | c :: rest, line, col =>
      if c = '"' then ("", rest, line, col + 1)
      else if c = '\\' then
        match rest with
        | [] => ("", [], line, col + 1)
        | e :: rest2 =>
            let ec : String :=
              if e = 'n' then "\n"
              else if e = 't' then "\t"
              else if e = '"' then "\""
              else if e = '\\' then "\\"
              else String.singleton e
            let (l2, c2) := advancePos line (col + 1) e
            let (restStr, rem, l3, c3) := readStringBody rest2 l2 c2
            (ec ++ restStr, rem, l3, c3)
      else
        let (l2, c2) := advancePos line col c
        let (restStr, rem, l3, c3) := readStringBody rest l2 c2
        (String.singleton c ++ restStr, rem, l3, c3)

/-- Lexer.skipComment body: consume to the newline (exclusive). -/
def skipCommentChars : List Char → Nat → (List Char × Nat)
  | [], col => ([], col)
  | c :: rest, col =>
      if c = '\n' then (c :: rest, col) else skipCommentChars rest (col + 1)

/-- Lexer.readIdentifier: the maximal [a-zA-Z0-9_] run. -/
def readIdentChars : List Char → Nat → (String × List Char × Nat)
  | [], col => ("", [], col)
  | c :: rest, col =>
      if c.isAlphanum ∨ c = '_' then
        let (txt, rem, col2) := readIdentChars rest (col + 1)
        (String.singleton c ++ txt, rem, col2)
      else ("", c :: rest, col)

/-- Lexer.getKeywordOrIdentifier. -/
def keywordOr (text : String) : TokType :=
  if text = "concept" then .CONCEPT
  else if text = "entity" then .ENTITY
  else if text = "description" then .DESCRIPTION
  else if text = "attributes" then .ATTRIBUTES
  else if text = "essentials" then .ESSENTIALS
  else if text = "not" then .NEGATION
  else .IDENTIFIER

/-- The single-character token table of the web lexer. -/
def singleTok (c : Char) : Option TokType :=
  if c = '=' then some .ASSIGN
  else if c = '?' then some .QUERY
  else if c = '.' then some .DOT
  else if c = ',' then some .COMMA
  else if c = ':' then some .COLON
  else if c = '(' then some .LPAREN
  else if c = ')' then some .RPAREN
  else if c = '[' then some .LBRACKET
  else if c = ']' then some .RBRACKET
  else if c = '|' then some .BAR
  else if c = ';' then some .SEMICOLON
  else if c = '!' then some .CUTTOK
  else none

/-- Prepend a token to the result of the rest of the tokenization. -/
def consTok (ty : TokType) (value : String) (line col : Nat)
    (rest : Except (Char × Nat × Nat) (List Token)) :
    Except (Char × Nat × Nat) (List Token) :=
  match rest with
  | .ok toks => .ok (⟨ty, value, line, col⟩ :: toks)
  | .error e => .error e

/-- Lexer.tokenize loop; an error carries the offending character and its
position (the only throw of the web lexer).  The fuel bounds the
iteration count; each iteration consumes at least one character, so
length + 1 is always enough. -/
def tokenizeLoop : Nat → List Char → Nat → Nat →
    Except (Char × Nat × Nat) (List Token)
  | 0, _, line, col => .error (' ', line, col)
  | fuel + 1, input, line, col =>
      match input with
      | [] => .ok [⟨.EOF, "", line, col⟩]
      | c :: rest =>
          if c = ' ' ∨ c = '\t' ∨ c = '\r' ∨ c = '\n' then
            let (l2, c2) := advancePos line col c
            tokenizeLoop fuel rest l2 c2
          else if c = '#' then
            let (rem, col2) := skipCommentChars rest (col + 1)
            tokenizeLoop fuel rem line col2
          else if c = '"' then
            let (sVal, rem, l2, c2) := readStringBody rest line (col + 1)
            consTok .STRING sVal line col (tokenizeLoop fuel rem l2 c2)
          else
            match c, rest with
            | '=', '~' :: '=' :: rem =>
                consTok .SEMANTIC_MATCH "=~=" line col
                  (tokenizeLoop fuel rem line (col + 3))
            | ':', '-' :: rem =>
                consTok .IMPLIES ":-" line col (tokenizeLoop fuel rem line (col + 2))
            | '-', '>' :: rem =>
                consTok .IF_THEN "->" line col (tokenizeLoop fuel rem line (col + 2))
            | '=', '=' :: rem =>
                consTok .EQUAL_EQUAL "==" line col (tokenizeLoop fuel rem line (col + 2))
            | _, _ =>
                match singleTok c with
                | some ty =>
                    consTok ty (String.singleton c) line col
                      (tokenizeLoop fuel rest line (col + 1))
                | none =>
                    if c.isAlpha ∨ c = '_' then
                      let (txt, rem, col2) := readIdentChars (c :: rest) col
                      consTok (keywordOr txt) txt line col
                        (tokenizeLoop fuel rem line col2)
                    else .error (c, line, col)

/-- Lexer.tokenize of the web lexer. -/
def tokenize (s : String) : Except (Char × Nat × Nat) (List Token) :=
  tokenizeLoop (s.length + 1) s.toList 1 1

/-- The binding graph of a substitution: an edge from a bound variable to
each variable its bound term can expand. -/
def edgeS (s : Subst) (x y : String) : Prop :=
  ∃ t, substGet s x = some t ∧ y ∈ fvars t

/-- Acyclicity of a substitution: no variable reaches itself through the
binding graph; equivalently, no binding contains its own variable under
dereference.  This is the occurs-check invariant of the engine. -/
def AcyclicSub (s : Subst) : Prop :=
  ∀ x, ¬ Relation.TransGen (edgeS s) x x

/-- The input substitutions of a job (those evaluation extends). -/
def jobInputs : Job → List Subst
  | .goals _ σ => [σ]
  | .seq _ pending => pending
  | .cond _ σ => [σ]
  | .pred _ _ σ => [σ]
  | .clauses _ _ _ σ => [σ]

/-- Drop every rule whose head name collides with a built-in name. -/
def removeBuiltinRules (kb : KB) : KB :=
  { kb with rules := kb.rules.filter (fun r => ¬ builtinNames.contains r.head.name) }

/-- An engine over a knowledge base with the judge always failing. -/
def envPlain (kb : KB) : Env :=
  { kb := kb, threshold := 7/10, score := fun _ _ _ => none }

/-- Fixture: p(A). p(B). q :- !. r(x) :- p(x), q. -/
def kbCutDemo : KB :=
  { concepts := [], entities := [], rules :=
    [ { head := { name := "p", parameters := [.Atom "A"] }, body := [] },
      { head := { name := "p", parameters := [.Atom "B"] }, body := [] },
      { head := { name := "q", parameters := [] }, body := [.Cut] },
      { head := { name := "r", parameters := [.Variable "x" false] },
        body := [.PredicateCall "p" [.Variable "x" false], .PredicateCall "q" []] } ] }

/-- Fixture: as kbCutDemo but q is a plain fact (no cut). -/
def kbFactDemo : KB :=
  { concepts := [], entities := [], rules :=
    [ { head := { name := "p", parameters := [.Atom "A"] }, body := [] },
      { head := { name := "p", parameters := [.Atom "B"] }, body := [] },
      { head := { name := "q", parameters := [] }, body := [] },
      { head := { name := "r", parameters := [.Variable "x" false] },
        body := [.PredicateCall "p" [.Variable "x" false], .PredicateCall "q" []] } ] }

/-- Fixture: the empty knowledge base. -/
def kbEmpty : KB := { concepts := [], entities := [], rules := [] }

/-- Fixture: p(A). p(A). p(B). (duplicate solutions for setof). -/
def kbDupFacts : KB :=
  { concepts := [], entities := [], rules :=
    [ { head := { name := "p", parameters := [.Atom "A"] }, body := [] },
      { head := { name := "p", parameters := [.Atom "A"] }, body := [] },
      { head := { name := "p", parameters := [.Atom "B"] }, body := [] } ] }

/-- Fixture: noisy :- println("hi"). -/
def kbNoisy : KB :=
  { concepts := [], entities := [], rules :=
    [ { head := { name := "noisy", parameters := [] },
        body := [.PredicateCall "println" [.StringLiteral "hi"]] } ] }

/-- Fixture: an entity E of concept type C and nothing else. -/
def kbEntityOnly : KB :=
  { concepts := [],
    entities := [{ name := "E", conceptType := "C", description := none, properties := [] }],
    rules := [] }

/-- Fixture: a user clause member(A, B, C). shadowed by the built-in. -/
def kbMemberClause : KB :=
  { concepts := [], entities := [], rules :=
    [ { head := { name := "member", parameters := [.Atom "A", .Atom "B", .Atom "C"] },
        body := [] } ] }

/-- Fixture: a judge whose every call fails. -/
def judgeDown : JudgeOracle :=
  { identityResp := fun _ _ => none, axisResp := fun _ _ _ => none,
    hasAttrResp := fun _ _ => none, shareAttrResp := fun _ _ _ => none,
    diffResp := fun _ _ => none }

/-- Fixture: a judge scoring 1 for the pair (philosopher, thinker) on any
axis and 0 otherwise. -/
def envSocrates : Env :=
  { kb := kbEmpty, threshold := 7/10,
    score := fun _ a b => if a = "philosopher" ∧ b = "thinker" then some 1 else some 0 }

/-- Replace a rule whose head name collides with a built-in name by an
arbitrary placeholder (here an empty print fact): such rules are dead
code, because calls with built-in names never reach clause iteration and
calls with other names never match them. -/
def neutralizeRule (r : Rule) : Rule :=
  if builtinNames.contains r.head.name then
    { head := { name := "print", parameters := [] }, body := [] }
  else r

/-- The bound variable names a deref walk visits from a term, in order,
within the given fuel (an analysis device for the completeness of the
fuelled deref on acyclic substitutions). -/
def chainVars (s : Subst) : Nat → Term → List String
  | 0, _ => []
  | n + 1, t =>
      match t with
      | .Variable w false =>
          match substGet s w with
          | some u => w :: chainVars s n u
          | none => []
      | _ => []

/-! Helper lemmas about dereferencing and the occurs check. -/

theorem deref_nonvar (t : Term) (s : Subst)
    (h : ∀ name, t ≠ .Variable name false) : deref t s = t := by
  unfold deref derefN
  match t with
  | .Variable name false => exact absurd rfl (h name)
  | .Variable name true => rfl
  | .Atom _ => rfl
  | .StringLiteral _ => rfl
  | .TList _ _ => rfl
  | .CompoundTerm _ _ => rfl
  | .FieldAccess _ _ => rfl

theorem deref_var_unbound (v : String) (s : Subst) (h : substGet s v = none) :
    deref (.Variable v false) s = .Variable v false := by
  unfold deref derefN
  simp [h]

theorem resolveField_nonfield (kb : KB) (t : Term)
    (h : ∀ o f, t ≠ .FieldAccess o f) : resolveField kb t = t := by
  unfold resolveField
  match t with
  | .Variable _ _ => rfl
  | .Atom _ => rfl
  | .StringLiteral _ => rfl
  | .TList _ _ => rfl
  | .CompoundTerm _ _ => rfl
  | .FieldAccess o f => exact absurd rfl (h o f)

theorem occursN_tlist_elem (n : Nat) (v : String) (es : List Term) (s : Subst)
    (h : occursN (n + 1) v (.TList es none) s = false) :
    ∀ t ∈ es, occursN n v t s = false := by
  intro t ht
  unfold occursN at h
  rw [deref_nonvar] at h
  · simp at h
    exact h t ht
  · intro name hn
    exact Term.noConfusion hn

theorem dedupByKey_mem_snd (pairs : List (String × Term)) :
    ∀ t ∈ dedupByKey pairs, t ∈ pairs.map Prod.snd := by
  unfold dedupByKey
  generalize [] = seen
  induction pairs generalizing seen with
  | nil => intro t ht; simp [dedupByKey.go] at ht
  | cons p rest ih =>
      obtain ⟨k, tv⟩ := p
      intro t ht
      unfold dedupByKey.go at ht
      by_cases hk : k ∈ seen
      · simp only [hk, if_true] at ht
        simpa using Or.inr (ih seen t ht)
      · simp only [hk, if_false, List.mem_cons] at ht
        rcases ht with h1 | h1
        · simp [h1]
        · simpa using Or.inr (ih (k :: seen) t h1)

theorem occursN_tlist_of_forall (n : Nat) (v : String) (es : List Term) (s : Subst)
    (h : ∀ t ∈ es, occursN n v t s = false) :
    occursN (n + 1) v (.TList es none) s = false := by
  unfold occursN
  rw [deref_nonvar]
  · simpa using h
  · intro name hn
    exact Term.noConfusion hn

theorem unify_var_list (kb : KB) (n : Nat) (v : String) (es : List Term) (σ : Subst)
    (hv : substGet σ v = none)
    (hocc : occursN (n + 1) v (.TList es none) σ = false) :
    unifyN kb (n + 1) (.Variable v false) (.TList es none) σ
      = some (substSet σ v (.TList es none)) := by
  unfold unifyN
  rw [deref_var_unbound v σ hv,
      deref_nonvar (.TList es none) σ (fun name hn => Term.noConfusion hn),
      resolveField_nonfield kb (.Variable v false) (fun o f hn => Term.noConfusion hn),
      resolveField_nonfield kb (.TList es none) (fun o f hn => Term.noConfusion hn)]
  simp [hocc]

/-! ## Claim C2 -/

/-- C2, counterexample: in the empty knowledge base the goal p(x) yields
no solutions, yet setof(x, p(x), l) does not fail — it succeeds exactly
once, binding l to the empty list. -/
theorem C2_setof_empty_counterexample :
    (run (envPlain kbEmpty) 30
      (.goals [.PredicateCall "p" [.Variable "x" false]] []) (mkSt [])).1 = []
    ∧ (run (envPlain kbEmpty) 30
        (.cond (.PredicateCall "setof"
          [.Variable "x" false, .CompoundTerm "p" [.Variable "x" false],
           .Variable "l" false]) []) (mkSt [])).1
      = [[("l", Term.TList [] none)]] :=
  ⟨rfl, rfl⟩

/-- C2, amended: when the collection argument is a fresh unbound variable,
findall(T, G, L) and setof(T, G, L) each succeed exactly once whatever the
solution set of G; findall binds L to the list of collected dereferenced
templates, setof to that list deduplicated by rendered string.  In
particular both succeed with L = [] when G has no solutions; setof never
fails on an empty solution set. -/
theorem C2_setof_findall_amended (env : Env) (n : Nat) (template goalTerm : Term)
    (v : String) (σ : Subst) (st : St) (gc : Condition)
    (hg : termToGoal goalTerm = some gc)
    (hv : substGet σ v = none)
    (herr : st.errored = false)
    (hocc : occursN (n + 1) v
      (.TList ((run env n (.goals [gc] σ) st).1.map (fun s => deref template s)) none)
      σ = false) :
    run env (n + 1) (.pred "findall" [template, goalTerm, .Variable v false] σ) st
      = ([substSet σ v
            (.TList ((run env n (.goals [gc] σ) st).1.map (fun s => deref template s)) none)],
         (run env n (.goals [gc] σ) st).2)
    ∧ run env (n + 1) (.pred "setof" [template, goalTerm, .Variable v false] σ) st
      = ([substSet σ v
            (.TList (dedupByKey ((run env n (.goals [gc] σ) st).1.map
              (fun s => (termToStringN (n + 1) (deref template s) s, deref template s)))) none)],
         (run env n (.goals [gc] σ) st).2) := by
  rcases hrun : run env n (.goals [gc] σ) st with ⟨sols, st1⟩
  rw [hrun] at hocc
  simp only at hocc
  have hel : ∀ t ∈ sols.map (fun s => deref template s), occursN n v t σ = false :=
    occursN_tlist_elem n v _ σ hocc
  have hocc2 : occursN (n + 1) v
      (.TList (dedupByKey (sols.map
        (fun s => (termToStringN (n + 1) (deref template s) s, deref template s)))) none)
      σ = false := by
    apply occursN_tlist_of_forall
    intro t ht
    apply hel
    have := dedupByKey_mem_snd _ t ht
    simpa [List.map_map, Function.comp] using this
  constructor
  · simp only [run, herr, hg, hrun]
    simp only [Bool.false_eq_true, if_false]
    rw [unify_var_list env.kb n v _ σ hv hocc]
    simp
  · simp only [run, herr, hg, hrun]
    simp only [Bool.false_eq_true, if_false]
    rw [unify_var_list env.kb n v _ σ hv hocc2]
    simp

/-- C2 witness: p(A). p(A). p(B). — setof(x, p(x), l) succeeds once with
the duplicate A removed. -/
theorem C2_setof_findall_amended_witness :
    run (envPlain kbDupFacts) 21
      (.pred "setof" [Term.Variable "x" false, Term.CompoundTerm "p" [Term.Variable "x" false],
        Term.Variable "l" false] []) (mkSt [])
    = ([[("l", Term.TList [Term.Atom "A", Term.Atom "B"] none)]],
       { inputs := [], outputs := [], printBuffer := "", counter := 3, errored := false }) := by
  have h := (C2_setof_findall_amended (envPlain kbDupFacts) 20
    (Term.Variable "x" false) (Term.CompoundTerm "p" [Term.Variable "x" false]) "l" [] (mkSt [])
    (.PredicateCall "p" [Term.Variable "x" false]) rfl rfl rfl (by rfl)).2
  rw [h]
  rfl

/-! ## Claim C3 -/

/-- C3, counterexample: readln(A) with the atom A — not an unbound
variable — does not raise a resolution error aborting the query: it
yields no solutions, leaves the state untouched (no error flag, input
unconsumed), and the driver completes the query normally. -/
theorem C3_readln_counterexample :
    run (envPlain kbEmpty) 30 (.cond (.PredicateCall "readln" [.Atom "A"]) [])
        (mkSt ["line1"])
      = ([], mkSt ["line1"])
    ∧ (executeQuery (envPlain kbEmpty) 30
        [.PredicateCall "readln" [.Atom "A"]] [] (mkSt ["line1"])).errored = false :=
  ⟨rfl, rfl⟩

/-- C3, amended: readln(V) with V dereferencing to a non-variable fails
silently (no solutions, no error, nothing read) — normal backtracking,
not a ResolutionError; with a variable it reads one line, binds it as a
string, and succeeds exactly once; any other arity fails silently. -/
theorem C3_readln_amended (env : Env) (n : Nat) (args : List Term) (σ : Subst) (st : St)
    (herr : st.errored = false) :
    (∀ a0, args = [a0] → (∀ v anon, deref a0 σ ≠ .Variable v anon) →
        run env (n + 1) (.pred "readln" args σ) st = ([], st))
    ∧ (∀ a0 v anon, args = [a0] → deref a0 σ = .Variable v anon →
        run env (n + 1) (.pred "readln" args σ) st
          = ([substSet σ v (.StringLiteral (takeInput st).1)], (takeInput st).2))
    ∧ (args.length ≠ 1 →
        run env (n + 1) (.pred "readln" args σ) st = ([], st)) := by
  refine ⟨?_, ?_, ?_⟩
  · intro a0 hargs hnv
    subst hargs
    simp only [run, herr]
    simp only [Bool.false_eq_true, if_false]
    cases hd : deref a0 σ
    case Variable v anon => exact absurd hd (hnv v anon)
    all_goals simp [hd]
  · intro a0 v anon hargs hd
    subst hargs
    simp only [run, herr]
    simp only [Bool.false_eq_true, if_false]
    simp [hd]
  · intro hlen
    simp only [run, herr]
    simp only [Bool.false_eq_true, if_false]
    match args, hlen with
    | [], _ => simp
    | a :: b :: rest, _ => simp
    | [a], h => exact absurd rfl h

/-- C3 witness: readln on the atom A fails silently; readln on an unbound
variable reads the line and binds it. -/
theorem C3_readln_amended_witness :
    run (envPlain kbEmpty) 30 (.pred "readln" [Term.Atom "A"] []) (mkSt ["hello"])
      = ([], mkSt ["hello"])
    ∧ run (envPlain kbEmpty) 30 (.pred "readln" [Term.Variable "v" false] []) (mkSt ["hello"])
      = ([[("v", Term.StringLiteral "hello")]], mkSt []) := by
  constructor
  · exact (C3_readln_amended (envPlain kbEmpty) 29 [Term.Atom "A"] [] (mkSt ["hello"]) rfl).1
      (Term.Atom "A") rfl (fun v anon h => Term.noConfusion h)
  · have h := (C3_readln_amended (envPlain kbEmpty) 29
      [Term.Variable "v" false] [] (mkSt ["hello"]) rfl).2.1
      (Term.Variable "v" false) "v" false rfl rfl
    rw [h]
    rfl

/-! ## Claim C9 -/

/-- C9, counterexample: for entity E of concept type C, the symbol-valued
field access E.concept resolves to the string term "C", not to the atom C
the claim states. -/
theorem C9_fieldaccess_counterexample :
    resolveField kbEntityOnly (.FieldAccess "E" "concept") = Term.StringLiteral "C"
    ∧ resolveField kbEntityOnly (.FieldAccess "E" "concept") ≠ Term.Atom "C" :=
  ⟨rfl, fun h => Term.noConfusion h⟩

/-- C9, amended: a resolved string-valued field (including the
symbol-valued genus and concept/conceptType fields, stored as strings)
becomes a String term, an array-valued field becomes a proper list of
String terms, and an unresolved lookup — in particular an object naming
neither a concept nor an entity — leaves the FieldAccess unchanged.  No
field ever resolves to an Atom. -/
theorem C9_resolveField_amended (kb : KB) (obj fld : String) :
    (getFieldValue kb obj fld = none →
        resolveField kb (.FieldAccess obj fld) = .FieldAccess obj fld)
    ∧ (∀ v, getFieldValue kb obj fld = some (.str v) →
        resolveField kb (.FieldAccess obj fld) = .StringLiteral v)
    ∧ (∀ vs, getFieldValue kb obj fld = some (.arr vs) →
        resolveField kb (.FieldAccess obj fld) = .TList (vs.map .StringLiteral) none)
    ∧ (∀ a, resolveField kb (.FieldAccess obj fld) ≠ .Atom a)
    ∧ (kbConcept kb obj = none → kbEntity kb obj = none →
        resolveField kb (.FieldAccess obj fld) = .FieldAccess obj fld) := by
  refine ⟨?_, ?_, ?_, ?_, ?_⟩
  · intro h
    simp [resolveField, h]
  · intro v h
    simp [resolveField, h]
  · intro vs h
    simp [resolveField, h]
  · intro a h
    simp only [resolveField] at h
    rcases hg : getFieldValue kb obj fld with _ | fv
    · rw [hg] at h
      exact Term.noConfusion h
    · rcases fv with v | vs
      · rw [hg] at h
        exact Term.noConfusion h
      · rw [hg] at h
        exact Term.noConfusion h
  · intro hc he
    have : getFieldValue kb obj fld = none := by
      unfold getFieldValue
      simp [hc, he]
    simp [resolveField, this]

/-- C9 witness: the concept-type field of E resolves to a string; a field
access on the unknown object Z is left unchanged. -/
theorem C9_resolveField_amended_witness :
    resolveField kbEntityOnly (.FieldAccess "E" "conceptType") = Term.StringLiteral "C"
    ∧ resolveField kbEntityOnly (.FieldAccess "Z" "genus") = .FieldAccess "Z" "genus" :=
  ⟨(C9_resolveField_amended kbEntityOnly "E" "conceptType").2.1 "C" rfl,
   (C9_resolveField_amended kbEntityOnly "Z" "genus").2.2.2.2 rfl rfl⟩

/-! ## Claim C8 -/

/-- Reading a string body free of quotes, escapes and newlines consumes
the whole input and returns it verbatim. -/
theorem readStringBody_plain (l : List Char) (line col : Nat)
    (h : ∀ c ∈ l, c ≠ '"' ∧ c ≠ '\\' ∧ c ≠ '\n') :
    readStringBody l line col = (String.mk l, [], line, col + l.length) := by
  induction l generalizing col with
  | nil => simp [readStringBody]
  | cons c rest ih =>
      obtain ⟨h1, h2, h3⟩ := h c (by simp)
      rw [readStringBody.eq_def]
      simp only [h1, h2, if_false, advancePos, h3]
      rw [ih (col + 1) (fun c' hc' => h c' (by simp [hc']))]
      refine Prod.ext ?_ (Prod.ext rfl (Prod.ext rfl ?_))
      · rfl
      · simp
        omega

/-- C8, counterexample: the source text consisting of the unterminated
string literal "abc is tokenized successfully — no lex error is raised;
the unterminated literal becomes a STRING token holding the rest of the
input. -/
theorem C8_unterminated_counterexample :
    tokenize "\"abc"
      = .ok [⟨.STRING, "abc", 1, 1⟩, ⟨.EOF, "", 1, 5⟩] := rfl

/-- C8, amended: a lex error (carrying the offending character and its
position) is raised only for characters outside the recognized set; an
unterminated string literal is accepted silently, the literal extending
to the end of the input.  For any body without quotes, escapes or
newlines, tokenizing the unterminated literal quote-body succeeds with a
single STRING token. -/
theorem C8_unterminated_amended (body : String)
    (h : ∀ c ∈ body.toList, c ≠ '"' ∧ c ≠ '\\' ∧ c ≠ '\n') :
    tokenize ("\"" ++ body)
      = .ok [⟨.STRING, body, 1, 1⟩, ⟨.EOF, "", 1, body.length + 2⟩] := by
  unfold tokenize
  have hdata : ("\"" ++ body).toList = '"' :: body.toList := by
    simp
  have hone : ("\"" : String).length = 1 := rfl
  have hlen : ("\"" ++ body).length = body.length + 1 := by
    rw [String.length_append, hone]
    omega
  rw [hdata, hlen]
  rw [show tokenizeLoop (body.length + 1 + 1) ('"' :: body.toList) 1 1
      = (match readStringBody body.toList 1 2 with
         | (sVal, rem, l2, c2) =>
             consTok .STRING sVal 1 1 (tokenizeLoop (body.length + 1) rem l2 c2)) from rfl]
  rw [readStringBody_plain body.toList 1 2 h]
  have hmk : String.mk body.toList = body := rfl
  have hlist : body.toList.length = body.length := rfl
  simp only [hmk, hlist]
  rw [show tokenizeLoop (body.length + 1) [] 1 (2 + body.length)
      = .ok [⟨.EOF, "", 1, 2 + body.length⟩] from rfl]
  simp [consTok]
  omega

/-- C8 witness: the unterminated literal "xy lexes to a single STRING
token and EOF. -/
theorem C8_unterminated_amended_witness :
    tokenize ("\"" ++ "xy")
      = .ok [⟨.STRING, "xy", 1, 1⟩, ⟨.EOF, "", 1, "xy".length + 2⟩] :=
  C8_unterminated_amended "xy" (by decide)

/-! ## Claim C5 -/

/-- C5: when every judge call fails (network error, non-2xx response or
parse failure, all of which make callLLM return null), the similarity
operations score 0, the boolean operations answer false, differentia
answers the empty string, and consequently the semantic goals and the
judge built-ins produce no solutions — plain goal failure, with no error
escaping the engine. -/
theorem C5_judge_failure_maps_to_failure (j : JudgeOracle) (threshold : ℚ)
    (hθ : 0 < threshold)
    (hid : ∀ x y, j.identityResp x y = none)
    (hax : ∀ d x y, j.axisResp d x y = none)
    (hha : ∀ x y, j.hasAttrResp x y = none)
    (hsa : ∀ c x y, j.shareAttrResp c x y = none)
    (hdf : ∀ x y, j.diffResp x y = none) :
    (∀ a b, getConceptualIdentity j a b = 0)
    ∧ (∀ d a b, getSimilarityAlongAxis j d a b = 0)
    ∧ (∀ a b, hasAttribute j a b = false)
    ∧ (∀ c a b, shareAttribute j c a b = false)
    ∧ (∀ a b, getDifferentia j a b = "")
    ∧ (∀ a b, nodeMatchStr j threshold a b = false)
    ∧ (∀ items r, nodeMatchList j threshold items r = false)
    ∧ (∀ kb fuel args s, differentiaHandler kb j fuel args s = [])
    ∧ (∀ fuel args s, hasAttrHandler j fuel args s = [])
    ∧ (∀ fuel args s, shareAttrHandler j fuel args s = []) := by
  have hci : ∀ a b, getConceptualIdentity j a b = 0 := by
    intro a b
    simp [getConceptualIdentity, hid]
  refine ⟨hci, ?_, ?_, ?_, ?_, ?_, ?_, ?_, ?_, ?_⟩
  · intro d a b
    simp [getSimilarityAlongAxis, hax]
  · intro a b
    simp [hasAttribute, hha]
  · intro c a b
    simp [shareAttribute, hsa]
  · intro a b
    simp [getDifferentia, hdf]
  · intro a b
    simp [nodeMatchStr, hci]
    exact hθ
  · intro items r
    simp [nodeMatchList, hci]
    intro i _
    exact hθ
  · intro kb fuel args s
    rcases args with _ | ⟨a0, _ | ⟨b0, _ | ⟨r0, _ | ⟨x, xs⟩⟩⟩⟩ <;>
      simp [differentiaHandler, getDifferentia, hdf]
  · intro fuel args s
    rcases args with _ | ⟨a0, _ | ⟨b0, _ | ⟨x, xs⟩⟩⟩ <;>
      simp [hasAttrHandler, hasAttribute, hha]
  · intro fuel args s
    rcases args with _ | ⟨a0, _ | ⟨b0, _ | ⟨r0, _ | ⟨x, xs⟩⟩⟩⟩ <;>
      simp [shareAttrHandler, shareAttribute, hsa]

/-- C5 witness: with the always-failing judge and the default threshold
0.7, the operations degrade as specified and differentia yields no
solutions. -/
theorem C5_judge_failure_witness :
    getConceptualIdentity judgeDown "dog" "canine" = 0
    ∧ hasAttribute judgeDown "size" "elephant" = false
    ∧ getDifferentia judgeDown "human" "animals" = ""
    ∧ nodeMatchStr judgeDown (7/10) "dog" "canine" = false
    ∧ differentiaHandler kbEmpty judgeDown 10
        [Term.Atom "A", Term.Atom "B", Term.Variable "r" false] [] = [] := by
  have h := C5_judge_failure_maps_to_failure judgeDown (7/10) (by norm_num)
    (fun _ _ => rfl) (fun _ _ _ => rfl) (fun _ _ => rfl) (fun _ _ _ => rfl) (fun _ _ => rfl)
  exact ⟨h.1 _ _, h.2.2.1 _ _, h.2.2.2.2.1 _ _, h.2.2.2.2.2.1 _ _,
    h.2.2.2.2.2.2.2.1 _ _ _ _⟩

/-! ## Claim C6 -/

/-- termToValue on a proper list of string literals yields their values. -/
theorem termToValue_string_list (kb : KB) (strs : List String) (σ : Subst) :
    termToValue kb (.TList (strs.map .StringLiteral) none) σ = some (.strs strs) := by
  unfold termToValue
  rw [deref_nonvar _ _ (fun name hn => Term.noConfusion hn),
      resolveField_nonfield kb _ (fun o f hn => Term.noConfusion hn)]
  simp only [List.map_map]
  have : ∀ x : String,
      ((fun e => (termToValueSync kb e σ).getD "") ∘ Term.StringLiteral) x = x :=
    fun x => rfl
  rw [List.map_congr_left (fun x _ => this x)]
  simp

/-- C6: a semantic-match goal whose left side dereferences to a proper
list of strings and whose right side to a string succeeds — yielding the
substitution unchanged, exactly once — iff some element of the list
receives a clamped judge score at or above the threshold; otherwise it
yields no solutions. -/
theorem C6_semantic_match_list (env : Env) (n : Nat) (l r : Term) (σ : Subst) (st : St)
    (strs : List String) (rv : String)
    (hl : deref l σ = .TList (strs.map .StringLiteral) none)
    (hr : deref r σ = .StringLiteral rv)
    (herr : st.errored = false) :
    run env (n + 1) (.cond (.SemanticMatch l r) σ) st
      = ((if strs.any (fun x =>
            decide (env.threshold ≤ getSimilarityScore env "conceptual identity" x rv))
          then [σ] else []), st)
    ∧ ((∃ x ∈ strs, env.threshold ≤ getSimilarityScore env "conceptual identity" x rv) ↔
        (run env (n + 1) (.cond (.SemanticMatch l r) σ) st).1 = [σ]) := by
  have hm : evaluateSemanticMatch env l r σ
      = strs.any (fun x =>
          decide (env.threshold ≤ getSimilarityScore env "conceptual identity" x rv)) := by
    unfold evaluateSemanticMatch
    rw [hl, hr, termToValue_string_list]
    rfl
  have hrun : run env (n + 1) (.cond (.SemanticMatch l r) σ) st
      = ((if strs.any (fun x =>
            decide (env.threshold ≤ getSimilarityScore env "conceptual identity" x rv))
          then [σ] else []), st) := by
    simp only [run, herr]
    simp only [Bool.false_eq_true, if_false, hm]
    split <;> rfl
  have h1 : (run env (n + 1) (.cond (.SemanticMatch l r) σ) st).1
      = (if strs.any (fun x =>
            decide (env.threshold ≤ getSimilarityScore env "conceptual identity" x rv))
          then [σ] else []) := by
    rw [hrun]
  refine ⟨hrun, ?_⟩
  rw [h1]
  constructor
  · intro hex
    have hany : strs.any (fun x =>
        decide (env.threshold ≤ getSimilarityScore env "conceptual identity" x rv)) = true := by
      simpa [List.any_eq_true] using hex
    simp [hany]
  · intro hone
    by_cases hany : strs.any (fun x =>
        decide (env.threshold ≤ getSimilarityScore env "conceptual identity" x rv)) = true
    · simpa [List.any_eq_true] using hany
    · rw [Bool.not_eq_true] at hany
      rw [hany] at hone
      simp at hone

/-- C6 witness: with a judge scoring (philosopher, thinker) at 1.0, the
list goal succeeds once with the substitution unchanged. -/
theorem C6_semantic_match_list_witness :
    run envSocrates 10
      (.cond (.SemanticMatch (.TList [.StringLiteral "philosopher"] none)
        (.StringLiteral "thinker")) []) (mkSt [])
      = ([[]], mkSt []) := by
  have h := (C6_semantic_match_list envSocrates 9
    (.TList [.StringLiteral "philosopher"] none) (.StringLiteral "thinker") [] (mkSt [])
    ["philosopher"] "thinker" rfl rfl rfl).1
  rw [h]
  norm_num [envSocrates, getSimilarityScore]

/-! ## Claim C4 -/

/-- C4, counterexample: for the program noisy :- println("hi"). the query
? noisy. fires println inside the rule body (the output line hi appears),
yet the driver still prints the True terminator — suppression does not
consider side effects fired inside rule bodies. -/
theorem C4_terminator_counterexample :
    (executeQuery (envPlain kbNoisy) 30 [.PredicateCall "noisy" []] [] (mkSt [])).outputs
      = ["hi", "True"] := rfl

/-- C4, amended: the True/False terminator is controlled by a purely
syntactic test on the top-level query body: it is suppressed iff the body
directly contains a predicate call named print, println or readln (nl is
not in the list), whether or not the call ever fired; side effects inside
rule bodies or nested goal structures never suppress it.  Otherwise the
driver prints True when at least one solution was yielded and False when
none was.  (The node CLI executor prints the terminator unconditionally.) -/
theorem C4_terminator_amended (env : Env) (fuel : Nat) (goals : List Condition)
    (globals : Subst) (st : St) (st2 : St)
    (hst2 : ((run env fuel (.goals goals globals) st).1).foldl
        (fun s σ => outputSolution fuel σ goals s)
        ((run env fuel (.goals goals globals) st).2) = st2) :
    (goals.any isSideEffectCall = true → executeQuery env fuel goals globals st = st2)
    ∧ (goals.any isSideEffectCall = false → st2.errored = false →
        (run env fuel (.goals goals globals) st).1 = [] →
        executeQuery env fuel goals globals st
          = { st2 with outputs := st2.outputs ++ ["False"] })
    ∧ (goals.any isSideEffectCall = false → st2.errored = false →
        (run env fuel (.goals goals globals) st).1 ≠ [] →
        executeQuery env fuel goals globals st
          = { st2 with outputs := st2.outputs ++ ["True"] }) := by
  rcases hr : run env fuel (.goals goals globals) st with ⟨sols, st1⟩
  rw [hr] at hst2
  simp only at hst2
  refine ⟨?_, ?_, ?_⟩
  · intro hside
    unfold executeQuery
    rw [hr]
    simp only [hst2, hside]
    by_cases he : st2.errored <;> simp [he]
  · intro hside herr hsols
    simp only at hsols
    subst hsols
    simp only [List.foldl_nil] at hst2
    subst hst2
    unfold executeQuery
    rw [hr]
    simp [hside, herr]
  · intro hside herr hsols
    simp only at hsols
    unfold executeQuery
    rw [hr]
    simp only [hst2, hside, herr]
    have : sols.length ≠ 0 := by
      intro h0
      exact hsols (List.length_eq_zero.mp h0)
    simp [this]

/-- C4 witness: a top-level println query is suppressed; a pure query
with no solutions prints False. -/
theorem C4_terminator_amended_witness :
    executeQuery (envPlain kbEmpty) 30
        [.PredicateCall "println" [.StringLiteral "hi"]] [] (mkSt [])
      = { inputs := [], outputs := ["hi"], printBuffer := "", counter := 0, errored := false }
    ∧ executeQuery (envPlain kbEmpty) 30 [.PredicateCall "missing" []] [] (mkSt [])
      = { inputs := [], outputs := ["False"], printBuffer := "", counter := 0,
          errored := false } := by
  constructor
  · have h := (C4_terminator_amended (envPlain kbEmpty) 30
      [.PredicateCall "println" [.StringLiteral "hi"]] [] (mkSt []) _ rfl).1 rfl
    rw [h]
    rfl
  · have h := (C4_terminator_amended (envPlain kbEmpty) 30
      [.PredicateCall "missing" []] [] (mkSt []) _ rfl).2.1 rfl rfl rfl
    rw [h]
    rfl

/-! ## Substitution and evaluator preservation machinery -/

theorem substGet_substSet (s : Subst) (k : String) (v : Term) (k' : String) :
    substGet (substSet s k v) k' = if k = k' then some v else substGet s k' := by
  induction s with
  | nil =>
      simp only [substSet, substGet]
  | cons hd tl ih =>
      obtain ⟨k0, t0⟩ := hd
      by_cases h0 : k0 = k
      · subst h0
        simp only [substSet, if_pos rfl, substGet]
        by_cases h1 : k0 = k'
        · simp [h1]
        · simp [h1]
      · simp only [substSet, if_neg h0, substGet, ih]
        by_cases h1 : k0 = k'
        · subst h1
          have hne : ¬ k = k0 := fun h => h0 h.symm
          simp [hne]
        · simp [h1]

theorem substHas_substSet (s : Subst) (k v' : String) (t : Term)
    (h : substHas s k = true) : substHas (substSet s v' t) k = true := by
  unfold substHas at *
  rw [substGet_substSet]
  by_cases hk : v' = k
  · simp [hk]
  · simp [hk, h]

theorem unifyPairs_mono (P : Subst → Prop)
    (u : Term → Term → Subst → Option Subst)
    (hu : ∀ a b s s', P s → u a b s = some s' → P s') :
    ∀ (l : List (Term × Term)) (s s' : Subst),
      P s → unifyPairs u l s = some s' → P s' := by
  intro l
  induction l with
  | nil =>
      intro s s' hp h
      simp only [unifyPairs] at h
      cases h
      exact hp
  | cons p rest ih =>
      obtain ⟨a, b⟩ := p
      intro s s' hp h
      simp only [unifyPairs] at h
      rcases hm : u a b s with _ | s1
      · rw [hm] at h
        exact absurd h (by simp)
      · rw [hm] at h
        exact ih s1 s' (hu a b s s1 hp hm) h

/-- Any property preserved by the occurs-checked binding extension is
preserved by unify. -/
theorem unifyN_pres (P : Subst → Prop) (kb : KB)
    (hset : ∀ (fuel : Nat) (v : String) (rhs : Term) (s : Subst),
      P s → occursN fuel v rhs s = false → P (substSet s v rhs)) :
    ∀ (fuel : Nat) (a b : Term) (s s' : Subst),
      P s → unifyN kb fuel a b s = some s' → P s' := by
  intro fuel
  induction fuel with
  | zero =>
      intro a b s s' _ h
      simp [unifyN] at h
  | succ n ih =>
      intro a b s s' hp h
      rw [unifyN] at h
      split at h
      · cases h; exact hp
      · cases h; exact hp
      · split at h
        · exact absurd h (by simp)
        · rename_i hocc
          cases h
          exact hset (n + 1) _ _ s hp (by simpa using hocc)
      · split at h
        · exact absurd h (by simp)
        · rename_i hocc
          cases h
          exact hset (n + 1) _ _ s hp (by simpa using hocc)
      · split at h
        · cases h; exact hp
        · exact absurd h (by simp)
      · split at h
        · cases h; exact hp
        · exact absurd h (by simp)
      · split at h
        · split at h
          · exact absurd h (by simp)
          · rename_i s1 hm
            exact ih _ _ s1 s' (ih _ _ s s1 hp hm) h
        · split at h
          · split at h
            · exact unifyPairs_mono P _ (fun a' b' t t' => ih a' b' t t') _ s s' hp h
            · exact absurd h (by simp)
          · exact absurd h (by simp)
      · split at h
        · exact unifyPairs_mono P _ (fun a' b' t t' => ih a' b' t t') _ s s' hp h
        · exact absurd h (by simp)
      · exact absurd h (by simp)

theorem mem_takeToCut : ∀ (l : List Subst) (σ : Subst), σ ∈ takeToCut l → σ ∈ l := by
  intro l
  induction l with
  | nil =>
      intro σ h
      simp [takeToCut] at h
  | cons x rest ih =>
      intro σ h
      unfold takeToCut at h
      by_cases hc : hasCut x = true
      · rw [if_pos hc] at h
        simp only [List.mem_singleton] at h
        simp [h]
      · rw [if_neg hc] at h
        simp only [List.mem_cons] at h
        rcases h with h1 | h1
        · simp [h1]
        · exact List.mem_cons_of_mem x (ih σ h1)
/-- Every substitution property preserved by occurs-checked unification
extensions, by readln string bindings, and by the cut marker is an
invariant of the whole evaluator: every solution the engine yields from
inputs satisfying the property satisfies it as well. -/
theorem run_preserves (P : Subst → Prop) (env : Env)
    (hu : ∀ fuel a b s s', P s → unifyN env.kb fuel a b s = some s' → P s')
    (hread : ∀ s (v : String) (str : String), P s → P (substSet s v (.StringLiteral str)))
    (hmark : ∀ s, P s → P (markCut s)) :
    ∀ (n : Nat) (job : Job) (st : St), (∀ σ ∈ jobInputs job, P σ) →
      ∀ σ' ∈ (run env n job st).1, P σ' := by
  intro n
  induction n with
  | zero =>
      intro job st _ σ' hmem
      simp [run] at hmem
  | succ n ih =>
      intro job st hin σ' hmem
      simp only [run] at hmem
      by_cases herr : st.errored = true
      · rw [if_pos herr] at hmem
        simp at hmem
      · rw [if_neg herr] at hmem
        cases job with
        | goals gs σ =>
            have hσ : P σ := hin σ (by simp [jobInputs])
            cases gs with
            | nil =>
                dsimp only at hmem
                simp at hmem
                subst hmem
                exact hσ
            | cons g gs =>
                dsimp only at hmem
                rcases hr : run env n (.cond g σ) st with ⟨sols, st1⟩
                rw [hr] at hmem
                simp only at hmem
                have hsols : ∀ τ ∈ sols, P τ := fun τ hτ =>
                  ih (.cond g σ) st (by simpa [jobInputs] using hσ) τ (by rw [hr]; exact hτ)
                exact ih (.seq gs sols) st1 (by simpa [jobInputs] using hsols) σ' hmem
        | seq gs pending =>
            cases pending with
            | nil =>
                dsimp only at hmem
                simp at hmem
            | cons σ rest =>
                dsimp only at hmem
                have hσ : P σ := hin σ (by simp [jobInputs])
                have hrest : ∀ τ ∈ rest, P τ := fun τ hτ =>
                  hin τ (by simp [jobInputs, hτ])
                rcases hr : run env n (.goals gs σ) st with ⟨r1, st1⟩
                rw [hr] at hmem
                simp only at hmem
                have hr1 : ∀ τ ∈ r1, P τ := fun τ hτ =>
                  ih (.goals gs σ) st (by simpa [jobInputs] using hσ) τ (by rw [hr]; exact hτ)
                split at hmem
                · exact hr1 σ' hmem
                · rcases hr2 : run env n (.seq gs rest) st1 with ⟨r2, st2⟩
                  rw [hr2] at hmem
                  simp only [List.mem_append] at hmem
                  rcases hmem with hmem | hmem
                  · exact hr1 σ' hmem
                  · exact ih (.seq gs rest) st1 (by simpa [jobInputs] using hrest) σ'
                      (by rw [hr2]; exact hmem)
        | cond c σ =>
            have hσ : P σ := hin σ (by simp [jobInputs])
            cases c with
            | PredicateCall name args =>
                dsimp only at hmem
                exact ih (.pred name args σ) st (by simpa [jobInputs] using hσ) σ' hmem
            | SemanticMatch l r =>
                dsimp only at hmem
                split at hmem <;> simp at hmem
                subst hmem
                exact hσ
            | EqualityU l r =>
                dsimp only at hmem
                split at hmem
                · rename_i σ2 hun
                  simp at hmem
                  subst hmem
                  exact hu (n + 1) l r σ _ hσ hun
                · simp at hmem
            | EqualityS l r =>
                dsimp only at hmem
                split at hmem <;> simp at hmem
                subst hmem
                exact hσ
            | Negation gs =>
                dsimp only at hmem
                rcases hr : run env n (.goals gs σ) st with ⟨sols, st1⟩
                rw [hr] at hmem
                simp only at hmem
                split at hmem <;> simp at hmem
                subst hmem
                exact hσ
            | Disjunction lgs rgs =>
                dsimp only at hmem
                rcases hr : run env n (.goals lgs σ) st with ⟨ls, st1⟩
                rw [hr] at hmem
                simp only at hmem
                have hls : ∀ τ ∈ ls, P τ := fun τ hτ =>
                  ih (.goals lgs σ) st (by simpa [jobInputs] using hσ) τ (by rw [hr]; exact hτ)
                split at hmem
                · exact hls σ' (mem_takeToCut _ _ hmem)
                · rcases hr2 : run env n (.goals rgs σ) st1 with ⟨rs, st2⟩
                  rw [hr2] at hmem
                  simp only [List.mem_append] at hmem
                  rcases hmem with hmem | hmem
                  · exact hls σ' (mem_takeToCut _ _ hmem)
                  · have hrs : ∀ τ ∈ rs, P τ := fun τ hτ =>
                      ih (.goals rgs σ) st1 (by simpa [jobInputs] using hσ) τ
                        (by rw [hr2]; exact hτ)
                    exact hrs σ' (mem_takeToCut _ _ hmem)
            | IfThenElse cnd thn els =>
                dsimp only at hmem
                rcases hr : run env n (.goals cnd σ) st with ⟨cs, st1⟩
                rw [hr] at hmem
                simp only at hmem
                cases cs with
                | nil =>
                    dsimp only at hmem
                    rcases hr2 : run env n (.goals els σ) st1 with ⟨es, st2⟩
                    rw [hr2] at hmem
                    simp only at hmem
                    have hes : ∀ τ ∈ es, P τ := fun τ hτ =>
                      ih (.goals els σ) st1 (by simpa [jobInputs] using hσ) τ
                        (by rw [hr2]; exact hτ)
                    exact hes σ' (mem_takeToCut _ _ hmem)
                | cons c0 cs' =>
                    dsimp only at hmem
                    have hc0 : P c0 := by
                      refine ih (.goals cnd σ) st (by simpa [jobInputs] using hσ) c0 ?_
                      rw [hr]
                      simp
                    rcases hr2 : run env n (.goals thn c0) st1 with ⟨ts, st2⟩
                    rw [hr2] at hmem
                    simp only at hmem
                    have hts : ∀ τ ∈ ts, P τ := fun τ hτ =>
                      ih (.goals thn c0) st1 (by simpa [jobInputs] using hc0) τ
                        (by rw [hr2]; exact hτ)
                    exact hts σ' (mem_takeToCut _ _ hmem)
            | Cut =>
                dsimp only at hmem
                simp at hmem
                subst hmem
                exact hmark σ hσ
        | clauses name args rs σ =>
            have hσ : P σ := hin σ (by simp [jobInputs])
            cases rs with
            | nil =>
                dsimp only at hmem
                simp at hmem
            | cons r rs =>
                dsimp only at hmem
                split at hmem
                · split at hmem
                  · exact ih (.clauses name args rs σ) _ (by simpa [jobInputs] using hσ) σ' hmem
                  · rename_i σ2 hun
                    have hσ2 : P σ2 :=
                      unifyPairs_mono P _ (fun a' b' t t' hp hcall => hu (n + 1) a' b' t t' hp hcall)
                        _ σ σ2 hσ hun
                    rcases hr : run env n
                        (.goals (refreshRule r st.counter).body σ2)
                        { st with counter := st.counter + 1 } with ⟨bs, st2⟩
                    rw [hr] at hmem
                    simp only at hmem
                    have hbs : ∀ τ ∈ bs, P τ := fun τ hτ =>
                      ih (.goals (refreshRule r st.counter).body σ2) _
                        (by simpa [jobInputs] using hσ2) τ (by rw [hr]; exact hτ)
                    split at hmem
                    · exact hbs σ' (mem_takeToCut _ _ hmem)
                    · rcases hr2 : run env n (.clauses name args rs σ) st2 with ⟨more, st3⟩
                      rw [hr2] at hmem
                      simp only [List.mem_append] at hmem
                      rcases hmem with hmem | hmem
                      · exact hbs σ' (mem_takeToCut _ _ hmem)
                      · exact ih (.clauses name args rs σ) st2 (by simpa [jobInputs] using hσ) σ'
                          (by rw [hr2]; exact hmem)
                · exact ih (.clauses name args rs σ) st (by simpa [jobInputs] using hσ) σ' hmem
        | pred name args σ =>
            have hσ : P σ := hin σ (by simp [jobInputs])
            dsimp only at hmem
            by_cases h1 : name = "print"
            · rw [if_pos h1] at hmem
              simp at hmem
              subst hmem
              exact hσ
            · rw [if_neg h1] at hmem
              by_cases h2 : name = "println"
              · rw [if_pos h2] at hmem
                simp at hmem
                subst hmem
                exact hσ
              · rw [if_neg h2] at hmem
                by_cases h3 : name = "readln"
                · rw [if_pos h3] at hmem
                  split at hmem
                  · split at hmem
                    · simp at hmem
                      subst hmem
                      exact hread σ _ _ hσ
                    · simp at hmem
                  · simp at hmem
                · rw [if_neg h3] at hmem
                  by_cases h4 : name = "member"
                  · rw [if_pos h4] at hmem
                    split at hmem
                    · split at hmem
                      · simp only [List.mem_filterMap] at hmem
                        rcases hmem with ⟨e, _, hun⟩
                        exact hu (n + 1) _ _ σ σ' hσ hun
                      · simp at hmem
                    · simp at hmem
                  · rw [if_neg h4] at hmem
                    by_cases h5 : name = "append"
                    · rw [if_pos h5] at hmem
                      split at hmem
                      · split at hmem
                        · split at hmem
                          · rename_i σ2 hun
                            simp at hmem
                            subst hmem
                            exact hu (n + 1) _ _ σ _ hσ hun
                          · simp at hmem
                        · simp at hmem
                      · simp at hmem
                    · rw [if_neg h5] at hmem
                      by_cases h6 : name = "reverse"
                      · rw [if_pos h6] at hmem
                        split at hmem
                        · split at hmem
                          · split at hmem
                            · rename_i σ2 hun
                              simp at hmem
                              subst hmem
                              exact hu (n + 1) _ _ σ _ hσ hun
                            · simp at hmem
                          · simp at hmem
                        · simp at hmem
                      · rw [if_neg h6] at hmem
                        by_cases h7 : name = "is_list"
                        · rw [if_pos h7] at hmem
                          split at hmem
                          · split at hmem <;> simp at hmem
                            subst hmem
                            exact hσ
                          · simp at hmem
                        · rw [if_neg h7] at hmem
                          by_cases h8 : name = "similar_attr"
                          · rw [if_pos h8] at hmem
                            split at hmem
                            · split at hmem <;> simp at hmem
                              subst hmem
                              exact hσ
                            · simp at hmem
                          · rw [if_neg h8] at hmem
                            by_cases h9 : name = "is_unbound"
                            · rw [if_pos h9] at hmem
                              split at hmem
                              · split at hmem <;> simp at hmem
                                subst hmem
                                exact hσ
                              · simp at hmem
                            · rw [if_neg h9] at hmem
                              by_cases h10 : name = "is_bound"
                              · rw [if_pos h10] at hmem
                                split at hmem
                                · split at hmem <;> simp at hmem
                                  subst hmem
                                  exact hσ
                                · simp at hmem
                              · rw [if_neg h10] at hmem
                                by_cases h11 : name = "is_atom"
                                · rw [if_pos h11] at hmem
                                  split at hmem
                                  · split at hmem <;> simp at hmem
                                    · subst hmem
                                      exact hσ
                                    · subst hmem
                                      exact hσ
                                  · simp at hmem
                                · rw [if_neg h11] at hmem
                                  by_cases h12 : name = "findall"
                                  · rw [if_pos h12] at hmem
                                    split at hmem
                                    · split at hmem
                                      · simp at hmem
                                      · rename_i gc htg
                                        rcases hr : run env n (.goals [gc] σ) st with ⟨sols, st1⟩
                                        rw [hr] at hmem
                                        simp only at hmem
                                        split at hmem
                                        · rename_i σ2 hun
                                          simp at hmem
                                          subst hmem
                                          exact hu (n + 1) _ _ σ _ hσ hun
                                        · simp at hmem
                                    · simp at hmem
                                  · rw [if_neg h12] at hmem
                                    by_cases h13 : name = "setof"
                                    · rw [if_pos h13] at hmem
                                      split at hmem
                                      · split at hmem
                                        · simp at hmem
                                        · rename_i gc htg
                                          rcases hr : run env n (.goals [gc] σ) st with ⟨sols, st1⟩
                                          rw [hr] at hmem
                                          simp only at hmem
                                          split at hmem
                                          · rename_i σ2 hun
                                            simp at hmem
                                            subst hmem
                                            exact hu (n + 1) _ _ σ _ hσ hun
                                          · simp at hmem
                                      · simp at hmem
                                    · rw [if_neg h13] at hmem
                                      exact ih (.clauses name args env.kb.rules σ) st
                                        (by simpa [jobInputs] using hσ) σ' hmem

/-! ## Claim C1 -/

/-- C1, counterexample: for p(A). p(B). q :- !. r(x) :- p(x), q. the cut
appears only inside the clause body of q, so cut locality demands that
? r(x). deliver both x = A and x = B — the cut may prune only q's own
alternatives.  The engine delivers exactly one solution: the cut-marked
substitution escaping q truncates the clause iteration of the enclosing
call r and the alternatives of the earlier conjunct p(x).  With q a plain
fact the same query delivers both solutions. -/
theorem C1_cut_locality_counterexample :
    (run (envPlain kbCutDemo) 30
      (.goals [.PredicateCall "r" [.Variable "x" false]] []) (mkSt [])).1.length = 1
    ∧ (run (envPlain kbFactDemo) 30
      (.goals [.PredicateCall "r" [.Variable "x" false]] []) (mkSt [])).1.length = 2 :=
  ⟨rfl, rfl⟩

/-- C1, amended: the cut marker is stored inside the substitution and is
never removed at the boundary of the invoking predicate call: every
substitution the evaluator derives from a cut-marked one remains
cut-marked, so enclosing predicate calls and outer conjunctions — whose
iteration loops stop at the first marked solution — are truncated as
well.  Cut is therefore not local to its barrier. -/
theorem C1_cut_marker_persists (env : Env) (n : Nat) (job : Job) (st : St)
    (hin : ∀ σ ∈ jobInputs job, hasCut σ = true) :
    ∀ σ' ∈ (run env n job st).1, hasCut σ' = true := by
  refine run_preserves (fun s => hasCut s = true) env ?_ ?_ ?_ n job st hin
  · intro fuel a b s s' hp hcall
    exact unifyN_pres (fun s => hasCut s = true) env.kb
      (fun fuel' v rhs s0 hp0 _ => substHas_substSet s0 CUT_MARKER v rhs hp0)
      fuel a b s s' hp hcall
  · intro s v str hp
    exact substHas_substSet s CUT_MARKER v _ hp
  · intro s hp
    exact substHas_substSet s CUT_MARKER CUT_MARKER (.Atom "!") hp

/-- C1 witness: starting the goal p(x) from a cut-marked substitution,
every delivered solution is still cut-marked. -/
theorem C1_cut_marker_persists_witness :
    ((run (envPlain kbCutDemo) 20
      (.goals [.PredicateCall "p" [.Variable "x" false]] (markCut []))
      (mkSt [])).1.all hasCut) = true := by
  have h := C1_cut_marker_persists (envPlain kbCutDemo) 20
    (.goals [.PredicateCall "p" [.Variable "x" false]] (markCut [])) (mkSt [])
    (by
      intro σ hσ
      simp [jobInputs] at hσ
      subst hσ
      rfl)
  simp only [List.all_eq_true]
  intro σ' hσ'
  exact h σ' hσ'

/-! ## Claim C10: builtin dispatch by name alone -/
theorem unifyN_congr (kb kb' : KB)
    (hrf : ∀ t, resolveField kb' t = resolveField kb t) :
    ∀ (fuel : Nat) (a b : Term) (s : Subst), unifyN kb' fuel a b s = unifyN kb fuel a b s := by
  intro fuel
  induction fuel with
  | zero =>
      intro a b s
      rfl
  | succ n ih =>
      intro a b s
      have hfun : unifyN kb' n = unifyN kb n :=
        funext fun x => funext fun y => funext fun z => ih x y z
      rw [unifyN, unifyN, hrf, hrf, hfun]

/-- C10 supporting invariance: a user-defined rule whose head name is a
built-in name is dead code: replacing every such rule by an arbitrary
placeholder changes no evaluation result.  Calls with built-in names are
dispatched by name alone to the built-in handler and never reach clause
iteration; calls with other names never match those rules. -/
theorem run_neutralize (env env2 : Env)
    (henv : env2 = { env with kb := { env.kb with
      rules := env.kb.rules.map neutralizeRule } }) :
    ∀ n : Nat,
      (∀ gs σ st, run env2 n (.goals gs σ) st = run env n (.goals gs σ) st)
      ∧ (∀ gs pending st, run env2 n (.seq gs pending) st = run env n (.seq gs pending) st)
      ∧ (∀ c σ st, run env2 n (.cond c σ) st = run env n (.cond c σ) st)
      ∧ (∀ name args σ st, run env2 n (.pred name args σ) st = run env n (.pred name args σ) st)
      ∧ (∀ name args rs σ st, builtinNames.contains name = false →
          run env2 n (.clauses name args (rs.map neutralizeRule) σ) st
            = run env n (.clauses name args rs σ) st) := by
  subst henv
  have hrf : ∀ t,
      resolveField { env with kb := { env.kb with
        rules := env.kb.rules.map neutralizeRule } }.kb t = resolveField env.kb t :=
    fun _ => rfl
  have hfu : unifyN { env with kb := { env.kb with
      rules := env.kb.rules.map neutralizeRule } }.kb = unifyN env.kb := by
    funext fuel a b s
    exact unifyN_congr env.kb _ hrf fuel a b s
  have hsem : evaluateSemanticMatch { env with kb := { env.kb with
      rules := env.kb.rules.map neutralizeRule } } = evaluateSemanticMatch env := rfl
  have hmwt : matchWithThreshold { env with kb := { env.kb with
      rules := env.kb.rules.map neutralizeRule } } = matchWithThreshold env := rfl
  intro n
  induction n with
  | zero =>
      exact ⟨fun _ _ _ => rfl, fun _ _ _ => rfl, fun _ _ _ => rfl,
        fun _ _ _ _ => rfl, fun _ _ _ _ _ _ => rfl⟩
  | succ n ih =>
      obtain ⟨ihg, ihs, ihc, ihp, ihcl⟩ := ih
      refine ⟨?_, ?_, ?_, ?_, ?_⟩
      · intro gs σ st
        cases gs with
        | nil => rfl
        | cons g gs =>
            simp only [run]
            by_cases herr : st.errored = true
            · simp [herr]
            · simp only [if_neg herr]
              try dsimp only
              rw [ihc g σ st, ihs gs (run env n (.cond g σ) st).1 (run env n (.cond g σ) st).2]

      · intro gs pending st
        cases pending with
        | nil => rfl
        | cons σ rest =>
            simp only [run]
            by_cases herr : st.errored = true
            · simp [herr]
            · simp only [if_neg herr]
              try dsimp only
              rw [ihg gs σ st,
                  ihs gs rest (run env n (.goals gs σ) st).2]
      · intro c σ st
        cases c with
        | PredicateCall name args =>
            simp only [run]
            by_cases herr : st.errored = true
            · simp [herr]
            · simp only [if_neg herr]
              try dsimp only
              rw [ihp name args σ st]
        | SemanticMatch l r =>
            simp only [run]
            by_cases herr : st.errored = true
            · simp [herr]
            · simp only [if_neg herr]
              try dsimp only
              rw [hsem]
        | EqualityU l r =>
            simp only [run]
            by_cases herr : st.errored = true
            · simp [herr]
            · simp only [if_neg herr]
              try dsimp only
              rw [hfu]
        | EqualityS l r =>
            rfl
        | Negation gs =>
            simp only [run]
            by_cases herr : st.errored = true
            · simp [herr]
            · simp only [if_neg herr]
              try dsimp only
              rw [ihg gs σ st]
        | Disjunction lgs rgs =>
            simp only [run]
            by_cases herr : st.errored = true
            · simp [herr]
            · simp only [if_neg herr]
              try dsimp only
              rw [ihg lgs σ st, ihg rgs σ (run env n (.goals lgs σ) st).2]
        | IfThenElse cnd thn els =>
            simp only [run]
            by_cases herr : st.errored = true
            · simp [herr]
            · simp only [if_neg herr]
              try dsimp only
              rw [ihg cnd σ st]
              rcases hcs : run env n (.goals cnd σ) st with ⟨cs, st1⟩
              cases cs with
              | nil =>
                  try dsimp only
                  rw [ihg els σ st1]
              | cons c0 cs' =>
                  try dsimp only
                  rw [ihg thn c0 st1]
        | Cut =>
            rfl
      · intro name args σ st
        simp only [run]
        by_cases herr : st.errored = true
        · simp [herr]
        · simp only [if_neg herr]
          try dsimp only
          by_cases h1 : name = "print"
          · simp only [if_pos h1]
          · simp only [if_neg h1]
            by_cases h2 : name = "println"
            · simp only [if_pos h2]
            · simp only [if_neg h2]
              by_cases h3 : name = "readln"
              · simp only [if_pos h3]
              · simp only [if_neg h3]
                by_cases h4 : name = "member"
                · simp only [if_pos h4]
                  rw [hfu]
                · simp only [if_neg h4]
                  by_cases h5 : name = "append"
                  · simp only [if_pos h5]
                    rw [hfu]
                  · simp only [if_neg h5]
                    by_cases h6 : name = "reverse"
                    · simp only [if_pos h6]
                      rw [hfu]
                    · simp only [if_neg h6]
                      by_cases h7 : name = "is_list"
                      · simp only [if_pos h7]
                      · simp only [if_neg h7]
                        by_cases h8 : name = "similar_attr"
                        · simp only [if_pos h8]
                          rw [hmwt]
                        · simp only [if_neg h8]
                          by_cases h9 : name = "is_unbound"
                          · simp only [if_pos h9]
                          · simp only [if_neg h9]
                            by_cases h10 : name = "is_bound"
                            · simp only [if_pos h10]
                            · simp only [if_neg h10]
                              by_cases h11 : name = "is_atom"
                              · simp only [if_pos h11]
                              · simp only [if_neg h11]
                                by_cases h12 : name = "findall"
                                · simp only [if_pos h12]
                                  rcases args with _ | ⟨t1, _ | ⟨t2, _ | ⟨t3, _ | ⟨t4, ts⟩⟩⟩⟩
                                  · rfl
                                  · rfl
                                  · rfl
                                  · try dsimp only
                                    rcases htg : termToGoal t2 with _ | gc
                                    · rfl
                                    · try dsimp only
                                      rw [ihg [gc] σ st, hfu]
                                  · rfl
                                · simp only [if_neg h12]
                                  by_cases h13 : name = "setof"
                                  · simp only [if_pos h13]
                                    rcases args with _ | ⟨t1, _ | ⟨t2, _ | ⟨t3, _ | ⟨t4, ts⟩⟩⟩⟩
                                    · rfl
                                    · rfl
                                    · rfl
                                    · try dsimp only
                                      rcases htg : termToGoal t2 with _ | gc
                                      · rfl
                                      · try dsimp only
                                        rw [ihg [gc] σ st, hfu]
                                    · rfl
                                  · simp only [if_neg h13]
                                    have hnb : builtinNames.contains name = false := by
                                      simp [builtinNames, h1, h2, h3, h4, h5, h6, h7,
                                        h8, h9, h10, h11, h12, h13]
                                    exact ihcl name args env.kb.rules σ st hnb
      · intro name args rs σ st hnb
        cases rs with
        | nil => rfl
        | cons r rs =>
            simp only [List.map_cons]
            simp only [run]
            by_cases herr : st.errored = true
            · simp [herr]
            · simp only [if_neg herr]
              try dsimp only
              by_cases hb : builtinNames.contains r.head.name = true
              · have hr1 : neutralizeRule r
                    = { head := { name := "print", parameters := [] }, body := [] } := by
                  simp only [neutralizeRule]
                  rw [if_pos hb]
                have hnp : ¬ (("print" : String) = name ∧
                    ([] : List Term).length = args.length) := by
                  intro hcon
                  rw [← hcon.1] at hnb
                  simp [builtinNames] at hnb
                have hnr : ¬ (r.head.name = name ∧
                    r.head.parameters.length = args.length) := by
                  intro hcon
                  rw [hcon.1] at hb
                  rw [hb] at hnb
                  exact Bool.true_eq_false.mp hnb
                rw [hr1]
                simp only [if_neg hnp, if_neg hnr]
                exact ihcl name args rs σ st hnb
              · have hr1 : neutralizeRule r = r := by
                  simp only [neutralizeRule]
                  rw [if_neg hb]
                rw [hr1]
                by_cases hm : r.head.name = name ∧ r.head.parameters.length = args.length
                · simp only [if_pos hm]
                  rw [hfu]
                  rcases hup : unifyPairs (unifyN env.kb (n + 1))
                      (args.zip (refreshRule r st.counter).head.parameters) σ with _ | σ2
                  · try dsimp only
                    exact ihcl name args rs σ _ hnb
                  · try dsimp only
                    rw [ihg (refreshRule r st.counter).body σ2
                        { st with counter := st.counter + 1 }]
                    rw [ihcl name args rs σ
                        (run env n (.goals (refreshRule r st.counter).body σ2)
                          { st with counter := st.counter + 1 }).2 hnb]
                · simp only [if_neg hm]
                  exact ihcl name args rs σ st hnb

/-- C10: built-in dispatch is keyed by predicate name alone, not name/arity.
Replacing every knowledge-base rule whose head name appears in the built-in
table by an inert placeholder changes no evaluation result, so a user clause
with a built-in head name can never contribute a solution; and a call to the
built-in member with an arity other than 2 is still handled by the built-in,
silently yielding no solutions instead of falling back to clauses. -/
theorem C10_builtin_dispatch_by_name (env : Env) (n : Nat) :
    (∀ (gs : List Condition) (σ : Subst) (st : St),
      run { env with kb := { env.kb with rules := env.kb.rules.map neutralizeRule } }
          n (.goals gs σ) st
        = run env n (.goals gs σ) st)
    ∧ (∀ (args : List Term) (σ : Subst) (st : St),
        args.length ≠ 2 →
          run env (n + 1) (.pred "member" args σ) st = ([], st)) := by
  constructor
  · exact (run_neutralize env _ rfl n).1
  · intro args σ st hlen
    simp only [run]
    by_cases herr : st.errored = true
    · simp [herr]
    · simp only [if_neg herr]
      try dsimp only
      rcases args with _ | ⟨a, _ | ⟨b, _ | ⟨c, ts⟩⟩⟩
      · simp
      · simp
      · exact absurd rfl hlen
      · simp

/-- C10 witness: with the user clause member(A, B, C). in the knowledge base,
neutralizing it changes nothing, and calling member at arity 3 yields no
solutions and leaves the state alone. -/
theorem C10_builtin_dispatch_by_name_witness :
    (run { envPlain kbMemberClause with kb := { (envPlain kbMemberClause).kb with
        rules := (envPlain kbMemberClause).kb.rules.map neutralizeRule } } 5
        (.goals [.PredicateCall "member" [.Atom "a", .Atom "b", .Atom "c"]] []) (mkSt [])
      = run (envPlain kbMemberClause) 5
        (.goals [.PredicateCall "member" [.Atom "a", .Atom "b", .Atom "c"]] []) (mkSt []))
    ∧ ([Term.Atom "a", .Atom "b", .Atom "c"].length ≠ 2
        ∧ run (envPlain kbMemberClause) 6
            (.pred "member" [.Atom "a", .Atom "b", .Atom "c"] []) (mkSt [])
          = ([], mkSt [])) :=
  ⟨(C10_builtin_dispatch_by_name (envPlain kbMemberClause) 5).1 _ _ _,
   by decide,
   (C10_builtin_dispatch_by_name (envPlain kbMemberClause) 5).2 _ _ _ (by decide)⟩

/-! ## Claim C7: deref completeness and occurs-check analysis -/

theorem derefN_shift (s : Subst) :
    ∀ (f : Nat) (t : Term), derefN (f + 1) t s = derefN 1 (derefN f t s) s := by
  intro f
  induction f with
  | zero => intro t; rfl
  | succ n ih =>
      intro t
      match t with
      | .Variable w false =>
          rw [show derefN (n + 1 + 1) (.Variable w false) s
              = (match substGet s w with
                 | some u => derefN (n + 1) u s
                 | none => .Variable w false) from rfl,
            show derefN (n + 1) (.Variable w false) s
              = (match substGet s w with
                 | some u => derefN n u s
                 | none => .Variable w false) from rfl]
          cases hsg : substGet s w with
          | none => simp [derefN, substGet, hsg]
          | some u => exact ih u
      | .Variable w true => rfl
      | .Atom a => rfl
      | .StringLiteral a => rfl
      | .TList es tl => rfl
      | .CompoundTerm f0 as => rfl
      | .FieldAccess o fl => rfl

theorem substGet_some_mem_keys (s : Subst) (y : String) (u : Term)
    (h : substGet s y = some u) : y ∈ s.map Prod.fst := by
  induction s with
  | nil => simp [substGet] at h
  | cons hd tl ih =>
      obtain ⟨k, t⟩ := hd
      simp only [substGet] at h
      by_cases hk : k = y
      · simp [hk]
      · rw [if_neg hk] at h
        simp [ih h]

theorem chainVars_mem (s : Subst) :
    ∀ (f : Nat) (t : Term) (y : String), y ∈ chainVars s f t →
      (∃ u, substGet s y = some u)
        ∧ ∃ x, x ∈ fvars t ∧ Relation.ReflTransGen (edgeS s) x y := by
  intro f
  induction f with
  | zero => intro t y hy; simp [chainVars] at hy
  | succ n ih =>
      intro t y hy
      match t with
      | .Variable w false =>
          rw [show chainVars s (n + 1) (.Variable w false)
              = (match substGet s w with
                 | some u => w :: chainVars s n u
                 | none => []) from rfl] at hy
          cases hsg : substGet s w with
          | none => rw [hsg] at hy; simp at hy
          | some u =>
              rw [hsg] at hy
              rcases List.mem_cons.mp hy with h1 | h1
              · subst h1
                exact ⟨⟨u, hsg⟩, y, by simp [fvars], Relation.ReflTransGen.refl⟩
              · obtain ⟨hb, x, hx, hpath⟩ := ih u y h1
                exact ⟨hb, w, by simp [fvars],
                  Relation.ReflTransGen.head ⟨u, hsg, hx⟩ hpath⟩
      | .Variable w true => simp [chainVars] at hy
      | .Atom a => simp [chainVars] at hy
      | .StringLiteral a => simp [chainVars] at hy
      | .TList es tl => simp [chainVars] at hy
      | .CompoundTerm f0 as => simp [chainVars] at hy
      | .FieldAccess o fl => simp [chainVars] at hy

theorem chainVars_nodup (s : Subst) (hA : AcyclicSub s) :
    ∀ (f : Nat) (t : Term), (chainVars s f t).Nodup := by
  intro f
  induction f with
  | zero => intro t; simp [chainVars]
  | succ n ih =>
      intro t
      match t with
      | .Variable w false =>
          rw [show chainVars s (n + 1) (.Variable w false)
              = (match substGet s w with
                 | some u => w :: chainVars s n u
                 | none => []) from rfl]
          cases hsg : substGet s w with
          | none => simp
          | some u =>
              simp only [List.nodup_cons]
              refine ⟨?_, ih u⟩
              intro hw
              obtain ⟨_, x, hx, hpath⟩ := chainVars_mem s n u w hw
              exact hA w (Relation.TransGen.head' ⟨u, hsg, hx⟩ hpath)
      | .Variable w true => simp [chainVars]
      | .Atom a => simp [chainVars]
      | .StringLiteral a => simp [chainVars]
      | .TList es tl => simp [chainVars]
      | .CompoundTerm f0 as => simp [chainVars]
      | .FieldAccess o fl => simp [chainVars]

theorem chainVars_length_le (s : Subst) (hA : AcyclicSub s) (f : Nat) (t : Term) :
    (chainVars s f t).length ≤ s.length := by
  have hnd := chainVars_nodup s hA f t
  have hsub : (chainVars s f t).toFinset ⊆ (s.map Prod.fst).toFinset := by
    intro y hy
    rw [List.mem_toFinset] at hy ⊢
    obtain ⟨⟨u, hu⟩, _⟩ := chainVars_mem s f t y hy
    exact substGet_some_mem_keys s y u hu
  calc (chainVars s f t).length
      = (chainVars s f t).toFinset.card := (List.toFinset_card_of_nodup hnd).symm
    _ ≤ (s.map Prod.fst).toFinset.card := Finset.card_le_card hsub
    _ ≤ (s.map Prod.fst).length := List.toFinset_card_le _
    _ = s.length := by simp

theorem derefN_stable_of_lt (s : Subst) :
    ∀ (f : Nat) (t : Term), (chainVars s f t).length < f →
      ∀ g, f ≤ g → derefN g t s = derefN f t s := by
  intro f
  induction f with
  | zero => intro t h; exact absurd h (Nat.not_lt_zero _)
  | succ n ih =>
      intro t h g hg
      obtain ⟨g', rfl⟩ : ∃ g', g = g' + 1 := ⟨g - 1, by omega⟩
      match t with
      | .Variable w false =>
          rw [show derefN (g' + 1) (.Variable w false) s
              = (match substGet s w with
                 | some u => derefN g' u s
                 | none => .Variable w false) from rfl,
            show derefN (n + 1) (.Variable w false) s
              = (match substGet s w with
                 | some u => derefN n u s
                 | none => .Variable w false) from rfl]
          cases hsg : substGet s w with
          | none => rfl
          | some u =>
              have h' : (chainVars s n u).length < n := by
                rw [show chainVars s (n + 1) (.Variable w false)
                    = (match substGet s w with
                       | some u0 => w :: chainVars s n u0
                       | none => []) from rfl, hsg] at h
                simpa using Nat.lt_of_succ_lt_succ h
              exact ih u h' g' (by omega)
      | .Variable w true => rfl
      | .Atom a => rfl
      | .StringLiteral a => rfl
      | .TList es tl => rfl
      | .CompoundTerm f0 as => rfl
      | .FieldAccess o fl => rfl

theorem derefN_ge_len (s : Subst) (hA : AcyclicSub s) (t : Term) :
    ∀ g, s.length + 1 ≤ g → derefN g t s = deref t s := by
  intro g hg
  have h := chainVars_length_le s hA (s.length + 1) t
  exact derefN_stable_of_lt s (s.length + 1) t (by omega) g hg

theorem deref_bound (s : Subst) (hA : AcyclicSub s) (w : String) (u : Term)
    (h : substGet s w = some u) : deref (.Variable w false) s = deref u s := by
  have h1 : deref (.Variable w false) s = derefN s.length u s := by
    show derefN (s.length + 1) (.Variable w false) s = derefN s.length u s
    rw [show derefN (s.length + 1) (.Variable w false) s
        = (match substGet s w with
           | some u0 => derefN s.length u0 s
           | none => .Variable w false) from rfl, h]
  have h2 : (chainVars s s.length u).length < s.length := by
    have h3 := chainVars_length_le s hA (s.length + 1) (.Variable w false)
    rw [show chainVars s (s.length + 1) (.Variable w false)
        = (match substGet s w with
           | some u0 => w :: chainVars s s.length u0
           | none => []) from rfl, h] at h3
    simp only [List.length_cons] at h3
    omega
  rw [h1]
  exact (derefN_stable_of_lt s s.length u h2 (s.length + 1) (Nat.le_succ _)).symm

theorem deref_var_bound_absurd (s : Subst) (hA : AcyclicSub s) (t : Term) (v : String)
    (h : deref t s = .Variable v false) : substGet s v = none := by
  cases hsg : substGet s v with
  | none => rfl
  | some u =>
      exfalso
      have hu : u = .Variable v false := by
        have e1 : derefN (s.length + 1 + 1) t s = u := by
          rw [derefN_shift s (s.length + 1) t]
          show derefN 1 (deref t s) s = u
          rw [h]
          rw [show derefN 1 (.Variable v false) s
              = (match substGet s v with
                 | some b => derefN 0 b s
                 | none => .Variable v false) from rfl, hsg]
          rfl
        have e2 : derefN (s.length + 1 + 1) t s = .Variable v false := by
          rw [derefN_ge_len s hA t _ (by omega), h]
        rw [e1] at e2
        exact e2
      exact hA v (Relation.TransGen.single ⟨u, hsg, by rw [hu]; simp [fvars]⟩)

theorem resolveField_var (kb : KB) (t : Term) (v : String) (anon : Bool)
    (h : resolveField kb t = .Variable v anon) : t = .Variable v anon := by
  match t with
  | .Variable n0 a0 => exact h
  | .Atom a0 => exact h
  | .StringLiteral a0 => exact h
  | .TList es tl => exact h
  | .CompoundTerm f0 as => exact h
  | .FieldAccess o fl =>
      exfalso
      rw [show resolveField kb (.FieldAccess o fl)
          = (match getFieldValue kb o fl with
             | none => .FieldAccess o fl
             | some (.str v0) => .StringLiteral v0
             | some (.arr vs) => .TList (vs.map .StringLiteral) none) from rfl] at h
      rcases hg : getFieldValue kb o fl with _ | fv
      · rw [hg] at h; exact Term.noConfusion h
      · rcases fv with v0 | vs
        · rw [hg] at h; exact Term.noConfusion h
        · rw [hg] at h; exact Term.noConfusion h

theorem occursN_of_deref_eq (v : String) (s : Subst) (t t' : Term) (n : Nat)
    (h : deref t s = deref t' s) : occursN (n + 1) v t s = occursN (n + 1) v t' s := by
  rw [show occursN (n + 1) v t s
      = (match deref t s with
         | .Variable name _ => name == v
         | .TList es tl =>
             es.any (fun e => occursN n v e s)
               || (match tl with | some u => occursN n v u s | none => false)
         | .CompoundTerm _ args => args.any (fun a => occursN n v a s)
         | _ => false) from rfl,
    show occursN (n + 1) v t' s
      = (match deref t' s with
         | .Variable name _ => name == v
         | .TList es tl =>
             es.any (fun e => occursN n v e s)
               || (match tl with | some u => occursN n v u s | none => false)
         | .CompoundTerm _ args => args.any (fun a => occursN n v a s)
         | _ => false) from rfl,
    h]

theorem fvarsList_mem (es : List Term) (y : String)
    (h : y ∈ fvarsList es) : ∃ e ∈ es, y ∈ fvars e := by
  induction es with
  | nil => simp [fvarsList] at h
  | cons e rest ih =>
      rw [show fvarsList (e :: rest) = fvars e ++ fvarsList rest from rfl] at h
      rcases List.mem_append.mp h with h1 | h1
      · exact ⟨e, by simp, h1⟩
      · obtain ⟨e', he', hy'⟩ := ih h1
        exact ⟨e', by simp [he'], hy'⟩

theorem occursN_true_tlist (n : Nat) (v : String) (es : List Term) (tl : Option Term)
    (s : Subst)
    (h : (∃ e ∈ es, occursN n v e s = true)
        ∨ (∃ u, tl = some u ∧ occursN n v u s = true)) :
    occursN (n + 1) v (.TList es tl) s = true := by
  rw [show occursN (n + 1) v (.TList es tl) s
      = (match deref (.TList es tl) s with
         | .Variable name _ => name == v
         | .TList es' tl' =>
             es'.any (fun e => occursN n v e s)
               || (match tl' with | some u => occursN n v u s | none => false)
         | .CompoundTerm _ args => args.any (fun a => occursN n v a s)
         | _ => false) from rfl,
    deref_nonvar (.TList es tl) s (fun name hn => Term.noConfusion hn)]
  rcases h with ⟨e, he, hocc⟩ | ⟨u, rfl, hocc⟩
  · simp only [Bool.or_eq_true, List.any_eq_true]
    exact Or.inl ⟨e, he, hocc⟩
  · simp only [Bool.or_eq_true]
    exact Or.inr (by simpa using hocc)

theorem occursN_true_compound (n : Nat) (v : String) (f0 : String) (args : List Term)
    (s : Subst) (h : ∃ a ∈ args, occursN n v a s = true) :
    occursN (n + 1) v (.CompoundTerm f0 args) s = true := by
  rw [show occursN (n + 1) v (.CompoundTerm f0 args) s
      = (match deref (.CompoundTerm f0 args) s with
         | .Variable name _ => name == v
         | .TList es' tl' =>
             es'.any (fun e => occursN n v e s)
               || (match tl' with | some u => occursN n v u s | none => false)
         | .CompoundTerm _ args' => args'.any (fun a => occursN n v a s)
         | _ => false) from rfl,
    deref_nonvar (.CompoundTerm f0 args) s (fun name hn => Term.noConfusion hn)]
  simp only [List.any_eq_true]
  exact h

theorem occursN_complete (s : Subst) (hA : AcyclicSub s) (v : String)
    (hv : substGet s v = none) :
    ∀ (f : Nat) (t : Term) (y : String), y ∈ fvars t →
      Relation.ReflTransGen (edgeS s) y v → occursN f v t s = true := by
  intro f
  induction f with
  | zero => intro t y _ _; rfl
  | succ n ihf =>
      intro t y hy hpath
      induction hpath using Relation.ReflTransGen.head_induction_on generalizing t with
      | refl =>
          match t with
          | .Variable w false =>
              have hw : v = w := by simpa [fvars] using hy
              subst hw
              rw [occursN_of_deref_eq v s (.Variable v false) (.Variable v false) n rfl,
                show occursN (n + 1) v (.Variable v false) s
                  = (match deref (.Variable v false) s with
                     | .Variable name _ => name == v
                     | .TList es tl =>
                         es.any (fun e => occursN n v e s)
                           || (match tl with | some u => occursN n v u s | none => false)
                     | .CompoundTerm _ args => args.any (fun a => occursN n v a s)
                     | _ => false) from rfl,
                deref_var_unbound v s hv]
              simp
          | .Variable w true => simp [fvars] at hy
          | .Atom a0 => simp [fvars] at hy
          | .StringLiteral a0 => simp [fvars] at hy
          | .FieldAccess o fl => simp [fvars] at hy
          | .TList es tl =>
              apply occursN_true_tlist
              have hmem : (∃ e ∈ es, v ∈ fvars e) ∨ (∃ u, tl = some u ∧ v ∈ fvars u) := by
                cases tl with
                | none => exact Or.inl (fvarsList_mem es v (by simpa [fvars] using hy))
                | some u =>
                    rcases List.mem_append.mp (by simpa [fvars] using hy) with h1 | h1
                    · exact Or.inl (fvarsList_mem es v h1)
                    · exact Or.inr ⟨u, rfl, h1⟩
              rcases hmem with ⟨e, he, hye⟩ | ⟨u, htl, hyu⟩
              · exact Or.inl ⟨e, he, ihf e v hye Relation.ReflTransGen.refl⟩
              · exact Or.inr ⟨u, htl, ihf u v hyu Relation.ReflTransGen.refl⟩
          | .CompoundTerm f0 args =>
              apply occursN_true_compound
              obtain ⟨e, he, hye⟩ := fvarsList_mem args v (by simpa [fvars] using hy)
              exact ⟨e, he, ihf e v hye Relation.ReflTransGen.refl⟩
      | head h' hrest ih =>
          rename_i a c
          have hpath' : Relation.ReflTransGen (edgeS s) a v :=
            Relation.ReflTransGen.head h' hrest
          match t with
          | .Variable w false =>
              have hw : a = w := by simpa [fvars] using hy
              subst hw
              obtain ⟨u, hsg, hcu⟩ := h'
              rw [occursN_of_deref_eq v s (.Variable a false) u n (deref_bound s hA a u hsg)]
              exact ih u hcu
          | .Variable w true => simp [fvars] at hy
          | .Atom a0 => simp [fvars] at hy
          | .StringLiteral a0 => simp [fvars] at hy
          | .FieldAccess o fl => simp [fvars] at hy
          | .TList es tl =>
              apply occursN_true_tlist
              have hmem : (∃ e ∈ es, a ∈ fvars e) ∨ (∃ u, tl = some u ∧ a ∈ fvars u) := by
                cases tl with
                | none => exact Or.inl (fvarsList_mem es a (by simpa [fvars] using hy))
                | some u =>
                    rcases List.mem_append.mp (by simpa [fvars] using hy) with h1 | h1
                    · exact Or.inl (fvarsList_mem es a h1)
                    · exact Or.inr ⟨u, rfl, h1⟩
              rcases hmem with ⟨e, he, hye⟩ | ⟨u, htl, hyu⟩
              · exact Or.inl ⟨e, he, ihf e a hye hpath'⟩
              · exact Or.inr ⟨u, htl, ihf u a hyu hpath'⟩
          | .CompoundTerm f0 args =>
              apply occursN_true_compound
              obtain ⟨e, he, hye⟩ := fvarsList_mem args a (by simpa [fvars] using hy)
              exact ⟨e, he, ihf e a hye hpath'⟩

theorem edgeS_substSet_iff (s : Subst) (v : String) (rhs : Term)
    (hv : substGet s v = none) (x y : String) :
    edgeS (substSet s v rhs) x y ↔ (x = v ∧ y ∈ fvars rhs) ∨ edgeS s x y := by
  constructor
  · rintro ⟨t, hget, hy⟩
    rw [substGet_substSet] at hget
    by_cases hx : v = x
    · subst hx
      rw [if_pos rfl] at hget
      cases hget
      exact Or.inl ⟨rfl, hy⟩
    · rw [if_neg hx] at hget
      exact Or.inr ⟨t, hget, hy⟩
  · rintro (⟨rfl, hy⟩ | ⟨t, hget, hy⟩)
    · exact ⟨rhs, by rw [substGet_substSet]; simp, hy⟩
    · by_cases hx : x = v
      · subst hx
        rw [hv] at hget
        exact Option.noConfusion hget
      · exact ⟨t, by rw [substGet_substSet, if_neg (fun h => hx h.symm)]; exact hget, hy⟩

theorem acyclic_substSet_ground (s : Subst) (k : String) (rhs : Term)
    (hA : AcyclicSub s) (hf : fvars rhs = []) : AcyclicSub (substSet s k rhs) := by
  intro x hcyc
  apply hA x
  refine Relation.TransGen.mono ?_ hcyc
  rintro a b ⟨t, hget, hb⟩
  rw [substGet_substSet] at hget
  by_cases hk : k = a
  · rw [if_pos hk] at hget
    cases hget
    rw [hf] at hb
    simp at hb
  · rw [if_neg hk] at hget
    exact ⟨t, hget, hb⟩

theorem acyclic_extend (s : Subst) (v : String) (rhs : Term)
    (hA : AcyclicSub s) (hv : substGet s v = none)
    (hocc : ∀ y ∈ fvars rhs, ¬ Relation.ReflTransGen (edgeS s) y v) :
    AcyclicSub (substSet s v rhs) := by
  have hEdgeOld : ∀ a b, edgeS s a b → edgeS (substSet s v rhs) a b := fun a b h =>
    (edgeS_substSet_iff s v rhs hv a b).mpr (Or.inr h)
  have hPS : ∀ a, Relation.ReflTransGen (edgeS (substSet s v rhs)) a v →
      Relation.ReflTransGen (edgeS s) a v := by
    intro a hp
    induction hp using Relation.ReflTransGen.head_induction_on with
    | refl => exact Relation.ReflTransGen.refl
    | head h' hrest ih =>
        rename_i a0 c0
        rcases (edgeS_substSet_iff s v rhs hv a0 c0).mp h' with ⟨rfl, _⟩ | hold
        · exact Relation.ReflTransGen.refl
        · exact Relation.ReflTransGen.head hold ih
  have hSplit : ∀ x y, Relation.TransGen (edgeS (substSet s v rhs)) x y →
      Relation.TransGen (edgeS s) x y
        ∨ (Relation.ReflTransGen (edgeS s) x v
            ∧ Relation.ReflTransGen (edgeS (substSet s v rhs)) v y) := by
    intro x y hxy
    induction hxy using Relation.TransGen.head_induction_on with
    | base h' =>
        rename_i a0
        rcases (edgeS_substSet_iff s v rhs hv a0 y).mp h' with ⟨rfl, _⟩ | hold
        · exact Or.inr ⟨Relation.ReflTransGen.refl, Relation.ReflTransGen.single h'⟩
        · exact Or.inl (Relation.TransGen.single hold)
    | ih h' hrest ih =>
        rename_i a0 c0
        rcases (edgeS_substSet_iff s v rhs hv a0 c0).mp h' with ⟨rfl, _⟩ | hold
        · exact Or.inr ⟨Relation.ReflTransGen.refl,
            Relation.ReflTransGen.head h' hrest.to_reflTransGen⟩
        · rcases ih with htc | ⟨hcv, hvy⟩
          · exact Or.inl (Relation.TransGen.head hold htc)
          · exact Or.inr ⟨Relation.ReflTransGen.head hold hcv, hvy⟩
  intro x hcyc
  rcases hSplit x x hcyc with hold | ⟨hxv, hvx⟩
  · exact hA x hold
  · have hxv' : Relation.ReflTransGen (edgeS (substSet s v rhs)) x v :=
      Relation.ReflTransGen.mono hEdgeOld hxv
    have hvv : Relation.TransGen (edgeS (substSet s v rhs)) v v :=
      Relation.TransGen.trans_left (Relation.TransGen.trans_right hvx hcyc) hxv'
    obtain ⟨c, e, hcv⟩ := Relation.TransGen.head'_iff.mp hvv
    rcases (edgeS_substSet_iff s v rhs hv v c).mp e with ⟨_, hcf⟩ | ⟨t, hget, _⟩
    · exact hocc c hcf (hPS c hcv)
    · rw [hv] at hget
      exact Option.noConfusion hget

theorem acyclic_unify_extend (s : Subst) (v : String) (rhs : Term) (f : Nat)
    (hA : AcyclicSub s) (hv : substGet s v = none)
    (hocc : occursN f v rhs s = false) : AcyclicSub (substSet s v rhs) := by
  apply acyclic_extend s v rhs hA hv
  intro y hy hpath
  rw [occursN_complete s hA v hv f rhs y hy hpath] at hocc
  exact Bool.noConfusion hocc

theorem acyclic_nil : AcyclicSub [] := by
  intro x h
  have hno : ∀ a b, ¬ edgeS [] a b := by
    rintro a b ⟨t, hget, _⟩
    simp [substGet] at hget
  cases h with
  | single e => exact hno _ _ e
  | tail _ e => exact hno _ _ e

/-- Unification keeps substitutions acyclic: both variable-binding sites
run the occurs check against the current substitution before extending
it, and the bound variable is unbound beforehand (deref returned it). -/
theorem unifyN_acyclic (kb : KB) :
    ∀ (fuel : Nat) (a b : Term) (s s' : Subst),
      AcyclicSub s → unifyN kb fuel a b s = some s' → AcyclicSub s' := by
  intro fuel
  induction fuel with
  | zero =>
      intro a b s s' _ h
      simp [unifyN] at h
  | succ n ih =>
      intro a b s s' hp h
      rw [unifyN] at h
      split at h
      · cases h; exact hp
      · cases h; exact hp
      · split at h
        · exact absurd h (by simp)
        · rename_i hocc
          cases h
          rename_i lft rgt v hL hxb
          have hd : deref a s = .Variable v false :=
            resolveField_var kb (deref a s) v false hL
          have hv : substGet s v = none := deref_var_bound_absurd s hp a v hd
          exact acyclic_unify_extend s v _ (n + 1) hp hv (by simpa using hocc)
      · split at h
        · exact absurd h (by simp)
        · rename_i hocc
          cases h
          rename_i lft rgt v hR hx1 hx2
          have hd : deref b s = .Variable v false :=
            resolveField_var kb (deref b s) v false hR
          have hv : substGet s v = none := deref_var_bound_absurd s hp b v hd
          exact acyclic_unify_extend s v _ (n + 1) hp hv (by simpa using hocc)
      · split at h
        · cases h; exact hp
        · exact absurd h (by simp)
      · split at h
        · cases h; exact hp
        · exact absurd h (by simp)
      · split at h
        · split at h
          · exact absurd h (by simp)
          · rename_i s1 hm
            exact ih _ _ s1 s' (ih _ _ s s1 hp hm) h
        · split at h
          · split at h
            · exact unifyPairs_mono AcyclicSub _ (fun a' b' t t' => ih a' b' t t') _ s s' hp h
            · exact absurd h (by simp)
          · exact absurd h (by simp)
      · split at h
        · exact unifyPairs_mono AcyclicSub _ (fun a' b' t t' => ih a' b' t t') _ s s' hp h
        · exact absurd h (by simp)
      · exact absurd h (by simp)

/-- C7: the engine maintains the occurs-check acyclicity invariant: from
acyclic input substitutions, every substitution the evaluator yields is
acyclic, i.e. no produced substitution binds a variable to a term that
contains that variable under dereference.  Unification performs the
occurs check before each binding extension, and the other binding sites
(the readln built-in and the cut marker) bind variable-free terms. -/
theorem C7_occurs_check_invariant (env : Env) (n : Nat) (job : Job) (st : St)
    (h : ∀ σ ∈ jobInputs job, AcyclicSub σ) :
    ∀ σ' ∈ (run env n job st).1, AcyclicSub σ' :=
  run_preserves AcyclicSub env
    (fun fuel a b s s' hs hun => unifyN_acyclic env.kb fuel a b s s' hs hun)
    (fun s v str hs => acyclic_substSet_ground s v (.StringLiteral str) hs rfl)
    (fun s hs => acyclic_substSet_ground s CUT_MARKER (.Atom "!") hs rfl)
    n job st h

/-- C7 witness: querying r(Z) against the demo knowledge base yields the
chained binding Z to x__r0, x__r0 to A, and that substitution is
acyclic. -/
theorem C7_occurs_check_invariant_witness :
    AcyclicSub [("Z", Term.Variable "x__r0" false), ("x__r0", Term.Atom "A")] := by
  have hmem : [("Z", Term.Variable "x__r0" false), ("x__r0", Term.Atom "A")]
      ∈ (run (envPlain kbFactDemo) 20
          (.goals [.PredicateCall "r" [.Variable "Z" false]] []) (mkSt [])).1 := by
    rw [show (run (envPlain kbFactDemo) 20
        (.goals [.PredicateCall "r" [.Variable "Z" false]] []) (mkSt [])).1
      = [[("Z", Term.Variable "x__r0" false), ("x__r0", Term.Atom "A")],
         [("Z", Term.Variable "x__r0" false), ("x__r0", Term.Atom "B")]] from rfl]
    exact List.mem_cons_self _ _
  exact C7_occurs_check_invariant (envPlain kbFactDemo) 20
    (.goals [.PredicateCall "r" [.Variable "Z" false]] []) (mkSt [])
    (fun σ hσ => by
      simp only [jobInputs, List.mem_singleton] at hσ
      subst hσ
      exact acyclic_nil)
    _ hmem
